import Mathlib

/-!
Verification of the layerai/sdk dependency-planning core against its
natural-language specification.

Strings are embedded as lists of characters (`Str`).  The asset-path
component is translated from `src/layer/contracts/assets.py`; the
execution-planner component (absent from the provided sources, which only
contain its unit tests) is modelled from the specification and validated
against `src/test/unit/projects/test_execution_planner.py`.
-/

/-- Characters of a Python string, in order. -/
abbrev Str := List Char

/-- Character list of a Lean string literal. -/
def strL (s : String) : Str := s.toList

/-- Split a character list at every occurrence of the character c, mirroring
Python's str.split(c): the result always has one more part than there are
occurrences of c, and parts may be empty. -/
def splitOnChar (c : Char) : Str → List Str
  | [] => [[]]
  | x :: xs =>
    if x = c then [] :: splitOnChar c xs
    else
      match splitOnChar c xs with
      | [] => [[x]]
      | s :: rest => (x :: s) :: rest

/-- Join a list of character lists with the character c between consecutive
parts, mirroring Python's c.join(parts). -/
def joinWith (c : Char) : List Str → Str
  | [] => []
  | [s] => s
  | s :: rest => s ++ c :: joinWith c rest

/-- ASCII decimal digit, the regex class [0-9]. -/
def isDigitC (c : Char) : Bool := 48 ≤ c.toNat && c.toNat ≤ 57

/-- ASCII lowercase letter, the regex class [a-z]. -/
def isLowerC (c : Char) : Bool := 97 ≤ c.toNat && c.toNat ≤ 122

/-- ASCII uppercase letter, the regex class [A-Z]. -/
def isUpperC (c : Char) : Bool := 65 ≤ c.toNat && c.toNat ≤ 90

/-- The regex class [a-zA-Z0-9_-] used for org, project, name and selector
segments of an asset path. -/
def segChar (c : Char) : Bool :=
  isLowerC c || isUpperC c || isDigitC c || c = '_' || c = '-'

/-- The regex class [a-z0-9_] used for the version field of an asset path. -/
def verChar (c : Char) : Bool := isLowerC c || isDigitC c || c = '_'

/-- The decimal digit character for d below 10 (used to serialize builds the
way Python's str(int) does on nonnegative input). -/
def digitChar : Nat → Char
  | 0 => '0' | 1 => '1' | 2 => '2' | 3 => '3' | 4 => '4'
  | 5 => '5' | 6 => '6' | 7 => '7' | 8 => '8' | 9 => '9'
  | _ => '0'

/-- Decimal digits with structural fuel (any fuel above the argument gives
the true digit string; the wrapper below supplies it). -/
def natDigitsAux : Nat → Nat → Str
  | 0, _ => []
  | fuel + 1, n =>
    if n < 10 then [digitChar n]
    else natDigitsAux fuel (n / 10) ++ [digitChar (n % 10)]

/-- Decimal digits of a natural number, most significant first, mirroring
Python's str(n) for nonnegative n. -/
def natDigits (n : Nat) : Str := natDigitsAux (n + 1) n

/-- Decimal rendering of a Python int: a minus sign followed by digits when
negative, plain digits otherwise. -/
def intChars (i : Int) : Str :=
  if i < 0 then '-' :: natDigits i.natAbs else natDigits i.toNat

/-- Numeric value of a string of decimal digits, mirroring Python's int() on
such input (leading zeros permitted). -/
def digitsToNat (ds : Str) : Nat :=
  ds.foldl (fun a c => 10 * a + (c.toNat - 48)) 0

/-- The two asset types of src/layer/contracts/assets.py (AssetType). -/
inductive AssetType where
  | dataset
  | model
deriving DecidableEq

/-- The wire value of an asset type (AssetType.value in the source). -/
def AssetType.value : AssetType → Str
  | .dataset => strL "datasets"
  | .model => strL "models"

/-- The AssetPath dataclass of src/layer/contracts/assets.py.  Python's
Optional[int] build is an Option Int. -/
structure AssetPath where
  asset_name : Str
  asset_type : AssetType
  org_name : Option Str := none
  project_name : Option Str := none
  asset_version : Option Str := none
  asset_build : Option Int := none
  asset_selector : Option Str := none
deriving DecidableEq

/-- AssetPath.path of the source: org, project, type value and name joined
with slashes (absent parts dropped), then a colon-version with an optional
dot-build only when the version is present, then a hash-selector. -/
def AssetPath.path (x : AssetPath) : Str :=
  let parts : List (Option Str) :=
    [x.org_name, x.project_name, some x.asset_type.value, some x.asset_name]
  let p := joinWith '/' (parts.filterMap id)
  let p :=
    match x.asset_version with
    | none => p
    | some v =>
      match x.asset_build with
      | none => p ++ ':' :: v
      | some b => p ++ ':' :: v ++ '.' :: intChars b
  match x.asset_selector with
  | none => p
  | some s => p ++ '#' :: s

/-- The capture groups of the anchored pattern
([a-zA-Z0-9_-]+/)?([a-zA-Z0-9_-]+/)?(datasets|models)/([a-zA-Z0-9_-]+)
(:([a-z0-9_]*)(.([0-9]*))?)?(#([a-zA-Z0-9_-]+))? from the source, with the
numbering of Python's result.groups(): seg1 is groups[1], seg2 is groups[3],
the type is groups[4], the name groups[5], the version groups[7], the build
digits groups[9] and the selector groups[11]. -/
structure PatternGroups where
  seg1 : Option Str
  seg2 : Option Str
  ptype : AssetType
  pname : Str
  pversion : Option Str
  pbuild : Option Str
  pselector : Option Str
deriving DecidableEq

/-- The type alternative (datasets|models) of the pattern. -/
def typeOf (t : Str) : Option AssetType :=
  if t = strL "datasets" then some AssetType.dataset
  else if t = strL "models" then some AssetType.model
  else none

/-- Match of the leading [org/][project/]{datasets|models}/name part of the
pattern against the slash-separated segments of the text.  Since the segment
class [a-zA-Z0-9_-] excludes the slash, a successful match of the anchored
pattern decomposes the text into two, three or four nonempty segments whose
second-to-last is a type word; with three or four segments the optional
groups that match in the backtracking search are always the leading ones, so
a single leading segment is always groups[1] (and becomes the project in
parse below). -/
def matchSegs (pre : Str) (v b sel : Option Str) : Option PatternGroups :=
  match splitOnChar '/' pre with
  | [t, n] =>
    if n ≠ [] ∧ n.all segChar then
      (typeOf t).map fun ty => ⟨none, none, ty, n, v, b, sel⟩
    else none
  | [p, t, n] =>
    if p ≠ [] ∧ p.all segChar ∧ n ≠ [] ∧ n.all segChar then
      (typeOf t).map fun ty => ⟨some p, none, ty, n, v, b, sel⟩
    else none
  | [o, p, t, n] =>
    if o ≠ [] ∧ o.all segChar ∧ p ≠ [] ∧ p.all segChar ∧ n ≠ [] ∧ n.all segChar then
      (typeOf t).map fun ty => ⟨some o, some p, ty, n, v, b, sel⟩
    else none
  | _ => none

/-- Match of the optional :version(.build)? part: the version class excludes
the dot, so at most one dot may follow the colon, separating the version from
the (possibly empty) build digits. -/
def matchVersion (core : Str) (sel : Option Str) : Option PatternGroups :=
  match splitOnChar ':' core with
  | [pre] => matchSegs pre none none sel
  | [pre, vb] =>
    match splitOnChar '.' vb with
    | [v] => if v.all verChar then matchSegs pre (some v) none sel else none
    | [v, b] =>
      if v.all verChar ∧ b.all isDigitC then matchSegs pre (some v) (some b) sel
      else none
    | _ => none
  | _ => none

/-- Full match of the anchored asset-path pattern of the source: an optional
#selector suffix (the selector class excludes the hash, so at most one hash
can occur), then the version part, then the segments. -/
def matchAssetPattern (s : Str) : Option PatternGroups :=
  match splitOnChar '#' s with
  | [core] => matchVersion core none
  | [core, sel] =>
    if sel ≠ [] ∧ sel.all segChar then matchVersion core (some sel) else none
  | _ => none

/-- AssetPath.parse of the source: a text with fewer than two slash-separated
segments is prefixed with the expected type (failing without one); the
pattern must match; a lone leading segment is the project and two leading
segments are org then project; the type found must agree with the expected
type when both are given; the build digits are converted by int() when
nonempty.  (The source's branches for a missing type group and an empty name
group are unreachable, since the pattern always binds both.) -/
def AssetPath.parse (composite0 : Str) (expected : Option AssetType) :
    Except Str AssetPath :=
  let step1 : Except Str Str :=
    if (splitOnChar '/' composite0).length < 2 then
      match expected with
      | none => .error (strL "Please specify full path or specify asset type")
      | some t => .ok (t.value ++ '/' :: composite0)
    else .ok composite0
  match step1 with
  | .error e => .error e
  | .ok composite =>
    match matchAssetPattern composite with
    | none => .error (strL "Asset path does not match expected pattern")
    | some g =>
      let optional_project : Option Str :=
        match g.seg2 with
        | some p => some p
        | none => g.seg1
      let optional_org : Option Str :=
        match g.seg2 with
        | some _ => g.seg1
        | none => none
      let asset_type := g.ptype
      let mismatch : Bool :=
        match expected with
        | some et => decide (asset_type ≠ et)
        | none => false
      if mismatch then
        .error (strL "expected asset type does not match the one found")
      else
        let optional_build : Option Int :=
          match g.pbuild with
          | none => none
          | some [] => none
          | some ds => some (Int.ofNat (digitsToNat ds))
        .ok
          { asset_name := g.pname
            asset_type := asset_type
            asset_version := g.pversion
            asset_build := optional_build
            asset_selector := g.pselector
            project_name := optional_project
            org_name := optional_org }

/-- AssetPath.has_project of the source. -/
def AssetPath.has_project (x : AssetPath) : Bool :=
  match x.project_name with
  | none => false
  | some p => decide (p ≠ [])

/-- AssetPath.with_project_name of the source: a copy with a new project. -/
def AssetPath.with_project_name (x : AssetPath) (p : Str) : AssetPath :=
  { x with project_name := some p }

/-- AssetPath.with_org_name of the source: a copy with a new org. -/
def AssetPath.with_org_name (x : AssetPath) (o : Str) : AssetPath :=
  { x with org_name := some o }

/-- AssetPath.url of the source: raises when the org or the project is absent
and otherwise joins the base URL and the canonical path with a slash. -/
def AssetPath.url (x : AssetPath) (base : Str) : Except Str Str :=
  match x.org_name with
  | none => .error (strL "Account name is required to get URL")
  | some _ =>
    match x.project_name with
    | none => .error (strL "Account name is required to get URL")
    | some _ => .ok (base ++ '/' :: x.path)

/-- Well-formed AssetPath: every field is drawn from the character class the
grammar of the source's pattern assigns to it (segments nonempty over
[a-zA-Z0-9_-], version over [a-z0-9_] and possibly empty, selector nonempty
over [a-zA-Z0-9_-], build nonnegative).  These are exactly the values whose
canonical serialization stays inside the grammar. -/
def wf (x : AssetPath) : Bool :=
  x.asset_name ≠ [] && x.asset_name.all segChar &&
  (x.org_name.all fun s => s ≠ [] && s.all segChar) &&
  (x.project_name.all fun s => s ≠ [] && s.all segChar) &&
  (x.asset_version.all fun s => s.all verChar) &&
  (x.asset_build.all fun b => decide (0 ≤ b)) &&
  (x.asset_selector.all fun s => s ≠ [] && s.all segChar)

/-- The value parse recovers from the canonical serialization of a
well-formed AssetPath: a lone org moves into the project slot, and a build
without a version is dropped (path omits it); everything else survives. -/
def canonical (x : AssetPath) : AssetPath :=
  { asset_name := x.asset_name
    asset_type := x.asset_type
    org_name := match x.project_name with
      | some _ => x.org_name
      | none => none
    project_name := match x.project_name with
      | some p => some p
      | none => x.org_name
    asset_version := x.asset_version
    asset_build := match x.asset_version with
      | some _ => x.asset_build
      | none => none
    asset_selector := x.asset_selector }

/-- The slash-joined parts of AssetPath.path: org and project when present,
then the type value and the name. -/
def prefixParts (x : AssetPath) : List Str :=
  ([x.org_name, x.project_name, some x.asset_type.value, some x.asset_name]).filterMap id

/-- The slash-joined core of AssetPath.path, before version and selector. -/
def coreOf (x : AssetPath) : Str := joinWith '/' (prefixParts x)

/-- The :version(.build)? suffix of AssetPath.path ([] when absent). -/
def vbOf (x : AssetPath) : Str :=
  match x.asset_version with
  | none => []
  | some v =>
    ':' :: v ++
      (match x.asset_build with
       | none => []
       | some b => '.' :: intChars b)

/-- The #selector suffix of AssetPath.path ([] when absent). -/
def selOf (x : AssetPath) : Str :=
  match x.asset_selector with
  | none => []
  | some s => '#' :: s

/-- The first leading segment of the serialized path: the org when present,
else the project when present. -/
def leadSeg1 (x : AssetPath) : Option Str :=
  match x.org_name, x.project_name with
  | some o, _ => some o
  | none, some p => some p
  | none, none => none

/-- The second leading segment of the serialized path: the project, present
only when the org is also present. -/
def leadSeg2 (x : AssetPath) : Option Str :=
  match x.org_name, x.project_name with
  | some _, some p => some p
  | _, _ => none

/-- The build-digit group the pattern captures on the serialized path: the
build rendering, present only when the version is also present. -/
def bdigits (x : AssetPath) : Option Str :=
  match x.asset_version, x.asset_build with
  | some _, some b => some (intChars b)
  | _, _ => none

/-- Modelled from the spec: ProjectFullName (the current-project identity of
spec section 6; layer/contracts/project_full_name.py is not under src/).  Its
path form is account/project, as in the tests' "test-acc/test". -/
structure ProjectFullName where
  account_name : Str
  project_name : Str
deriving DecidableEq

/-- Modelled from the spec: the identity of an entity within a planning run,
(project, type, name), per the spec's data model for EntityDefinition. -/
structure EntityId where
  project : Str
  assetType : AssetType
  name : Str
deriving DecidableEq

/-- Modelled from the spec: EntityDefinition (the FunctionDefinition family
of layer/contracts/runs.py is not under src/): identity fields, owning
project and account, a version id assigned once, and the declared dependency
paths. -/
structure EntityDef where
  name : Str
  assetType : AssetType
  project_name : Str
  account_name : Str
  version_id : Nat
  dependencies : List AssetPath
deriving DecidableEq

/-- The identity of a definition. -/
def defId (d : EntityDef) : EntityId := ⟨d.project_name, d.assetType, d.name⟩

/-- Modelled from the spec: the identity a declared dependency path refers
to, its project defaulting to the current project when the path carries no
project segment (spec section 4.2). -/
def depId (current : Str) (p : AssetPath) : EntityId :=
  ⟨p.project_name.getD current, p.asset_type, p.asset_name⟩

/-- Modelled from the spec: a graph node holds the definition, the ordered
resolved local dependency identities, and the external dependency paths
(spec section 3, Graph). -/
structure GraphNode where
  defn : EntityDef
  localDeps : List EntityId
  externalDeps : List AssetPath
deriving DecidableEq

/-- A graph is an ordered mapping from entity identity to node. -/
abbrev Graph := List (EntityId × GraphNode)

/-- Modelled from the spec: the Graph Builder (_build_graph of
layer/projects/execution_planner.py, not under src/): each declared
dependency whose identity matches a definition of the batch becomes a local
edge, every other dependency is recorded as external (spec section 4.2). -/
def buildGraph (defs : List EntityDef) (current : Str) : Graph :=
  let ids := defs.map defId
  defs.map fun d =>
    (defId d,
      ⟨d,
        (d.dependencies.filter fun p => decide (depId current p ∈ ids)).map
          (depId current),
        d.dependencies.filter fun p => decide (depId current p ∉ ids)⟩)

/-- Lookup of the first node bound to an identity. -/
def findNode : Graph → EntityId → Option GraphNode
  | [], _ => none
  | (j, nd) :: rest, i => if j = i then some nd else findNode rest i

/-- The local adjacency of an identity in a graph. -/
def adjOf (g : Graph) (i : EntityId) : List EntityId :=
  match findNode g i with
  | none => []
  | some nd => nd.localDeps

/-- The slice of a stack from the first occurrence of w to the top. -/
def sliceFrom (w : EntityId) : List EntityId → List EntityId
  | [] => []
  | x :: xs => if x = w then x :: xs else sliceFrom w xs

/-- Modelled from the spec: the cycle-recording depth-first search of
_find_cycles (layer/projects/execution_planner.py, not under src/): walk the
local edges keeping the current path stack, and whenever a node already on
the stack is revisited record the slice of the stack from that node to the
top as one cycle (spec section 4.3).  The fuel only bounds the recursion; a
stack never holds a node twice, so any fuel above the node count is enough. -/
def dfsCycles (adj : EntityId → List EntityId) :
    Nat → List EntityId → EntityId → List (List EntityId)
  | 0, _, _ => []
  | fuel + 1, stack, v =>
    (adj v).flatMap fun w =>
      if w ∈ stack ++ [v] then [sliceFrom w (stack ++ [v])]
      else dfsCycles adj fuel (stack ++ [v]) w

/-- Whether d is a rotation of c (the same cycle recorded from another entry
point of the stack walk). -/
def isRotation (c d : List EntityId) : Bool :=
  decide (c.length = d.length) &&
    (List.range c.length).any fun k => decide (c.rotate k = d)

/-- Keep the first representative of every rotation class, in order. -/
def dedupRot (cs : List (List EntityId)) : List (List EntityId) :=
  cs.foldl (fun acc c => if acc.any fun d => isRotation d c then acc else acc ++ [c]) []

/-- Modelled from the spec: _find_cycles (not under src/): run the recording
depth-first search from every node and return the distinct cycles found,
two recordings counting as the same cycle when one is a rotation of the
other (spec section 4.3 demands every distinct cycle, and the unit test
expects exactly 5 on its 4-node graph, the number of its distinct simple
cycles). -/
def findCycles (g : Graph) : List (List EntityId) :=
  dedupRot ((g.map Prod.fst).flatMap fun i => dfsCycles (adjOf g) (g.length + 1) [] i)

/-- Modelled from the spec: the Dependency Validator (spec section 4.4): a
dependency that claims to be local (its project, after defaulting, is the
current project) but matches no definition of the batch is unresolved;
cross-project dependencies are never validated. -/
def unresolvedOf (g : Graph) (current : Str) : List (EntityId × AssetPath) :=
  g.flatMap fun n =>
    (n.2.externalDeps.filter fun p =>
      decide (p.project_name.getD current = current)).map fun p => (n.1, p)

/-- Modelled from the spec: the planning errors of spec section 7 that the
graph subsystem raises. -/
inductive PlanError where
  | circularDependencies (cycles : List (List EntityId))
  | unresolvedDependency (src : EntityId) (dep : AssetPath)
  | notFound (target : EntityId)
deriving DecidableEq

/-- Modelled from the spec: check_entity_dependencies (not under src/):
build the graph, fail on any cycle with the full cycle list, fail on any
unresolved same-project dependency (spec sections 4.3 and 4.4). -/
def checkEntityDependencies (defs : List EntityDef) (current : Str) :
    Except PlanError Unit :=
  let g := buildGraph defs current
  match findCycles g with
  | [] =>
    match unresolvedOf g current with
    | [] => .ok ()
    | (i, p) :: _ => .error (.unresolvedDependency i p)
  | cs => .error (.circularDependencies cs)

/-- Modelled from the spec: topological depth, 0 for a node without local
dependencies and one more than the largest dependency depth otherwise (spec
section 4.6 step 2).  Fuel-bounded; any fuel above the longest local chain
is enough, and the plan builder passes the number of definitions. -/
def nodeDepth (g : Graph) : Nat → EntityId → Nat
  | 0, _ => 0
  | fuel + 1, i =>
    match adjOf g i with
    | [] => 0
    | d :: ds => 1 + ((d :: ds).map (nodeDepth g fuel)).foldl Nat.max 0

/-- Modelled from the spec: a Run bundles the current project with the
ordered definitions (layer/contracts/runs.py, not under src/). -/
structure Run where
  project : ProjectFullName
  definitions : List EntityDef
deriving DecidableEq

/-- Modelled from the spec: a plan step is either one sequential build
carrying its explicit dependency-path list, or a parallel batch split into
its datasets and its models (spec section 3, Plan). -/
inductive PlanOp where
  | sequential (d : EntityDef) (deps : List Str)
  | parallel (datasets : List EntityDef) (models : List EntityDef)
deriving DecidableEq

/-- Modelled from the spec: the ordered execution plan. -/
structure ExecutionPlan where
  operations : List PlanOp
deriving DecidableEq

/-- Modelled from the spec: the full path string of a direct dependency
inside a Sequential step, the org defaulting to the account and the project
to the current project (the unit tests expect
"test-acc/test/datasets/ds1"). -/
def renderDepPath (pfn : ProjectFullName) (p : AssetPath) : Str :=
  AssetPath.path
    { p with
        org_name := some (p.org_name.getD pfn.account_name),
        project_name := some (p.project_name.getD pfn.project_name) }

/-- Modelled from the spec: build_execution_plan (not under src/): validate
first, compute every node's topological depth, then walk the depths in
ascending order emitting one Sequential step for a singleton depth group
(its explicit dependency list being the direct dependency paths) and a
single Parallel step, split into datasets then models, for a larger group
(spec section 4.6). -/
def buildExecutionPlan (r : Run) : Except PlanError ExecutionPlan :=
  match checkEntityDependencies r.definitions r.project.project_name with
  | .error e => .error e
  | .ok _ =>
    let g := buildGraph r.definitions r.project.project_name
    let fuel := r.definitions.length
    let depthOf := fun d => nodeDepth g fuel (defId d)
    let maxD := (r.definitions.map depthOf).foldl Nat.max 0
    let ops := (List.range (maxD + 1)).flatMap fun k =>
      match r.definitions.filter fun d => decide (depthOf d = k) with
      | [] => []
      | [d] => [PlanOp.sequential d (d.dependencies.map (renderDepPath r.project))]
      | d1 :: d2 :: rest =>
        [PlanOp.parallel
          ((d1 :: d2 :: rest).filter fun d => decide (d.assetType = AssetType.dataset))
          ((d1 :: d2 :: rest).filter fun d => decide (d.assetType = AssetType.model))]
    .ok ⟨ops⟩

/-- Modelled from the spec: drop_dependencies, a pure transform returning a
new definition value whose declared dependencies are empty (spec
section 4.5). -/
def dropDependencies (d : EntityDef) : EntityDef := { d with dependencies := [] }

/-- Fold new elements onto the accumulator, keeping order and dropping
duplicates. -/
def addNew [DecidableEq α] : List α → List α → List α
  | acc, [] => acc
  | acc, x :: xs => addNew (if x ∈ acc then acc else acc ++ [x]) xs

/-- Saturate the accumulator under the adjacency, stopping at a fixpoint or
when the fuel runs out. -/
def closeIter [DecidableEq α] (adj : α → List α) : Nat → List α → List α
  | 0, acc => acc
  | k + 1, acc =>
    let acc2 := addNew acc (acc.flatMap adj)
    if acc2 = acc then acc else closeIter adj k acc2

/-- Modelled from the spec: the reachability walk of the Subgraph Extractor
from the target node along local edges (spec section 4.5). -/
def reachClosure (g : Graph) (t : EntityId) : List EntityId :=
  closeIter (adjOf g) ((g.map Prod.fst).dedup.length) [t]

/-- Modelled from the spec: drop_independent_entities (not under src/): the
current project is the target path's project; fail when no definition has
the target's identity; with keep_dependencies return, in input order, the
definitions reachable from the target along local edges; without it return
only the target with its dependencies dropped (spec section 4.5, with the
member order of the unit tests). -/
def dropIndependentEntities (defs : List EntityDef) (target : AssetPath)
    (keep : Bool) : Except PlanError (List EntityDef) :=
  let current := target.project_name.getD []
  let tid : EntityId := ⟨current, target.asset_type, target.asset_name⟩
  match defs.find? fun d => decide (defId d = tid) with
  | none => .error (.notFound tid)
  | some td =>
    if keep then
      let g := buildGraph defs current
      .ok (defs.filter fun d => decide (defId d ∈ reachClosure g tid))
    else
      .ok [dropDependencies td]

/-- Transitive reachability along the local edges of a graph; used to state
the subgraph-extraction claims independently of the walk that computes
them. -/
inductive Reaches (g : Graph) : EntityId → EntityId → Prop
  | refl (i : EntityId) : Reaches g i i
  | step {i j k : EntityId} : Reaches g i j → k ∈ adjOf g j → Reaches g i k

/-- The identity a subgraph-extraction target path denotes: its project (the
current project of the extraction), its type and its name. -/
def tidOf (target : AssetPath) : EntityId :=
  ⟨target.project_name.getD [], target.asset_type, target.asset_name⟩

/-- A bare dependency path of the given type and name, as the unit tests
write "datasets/a". -/
def bareDep (t : AssetType) (n : Str) : AssetPath :=
  ⟨n, t, none, none, none, none, none⟩

/-- The four entities of the cycle-enumeration test
(test_project_find_cycles_returns_correct_cycles): m depends on a and e,
a on m and e, e on s, s on a and m, all in project test. -/
def cycleDefs : List EntityDef :=
  [⟨strL "m", .model, strL "test", strL "test-acc", 0,
     [bareDep .dataset (strL "a"), bareDep .dataset (strL "e")]⟩,
   ⟨strL "a", .dataset, strL "test", strL "test-acc", 1,
     [bareDep .model (strL "m"), bareDep .dataset (strL "e")]⟩,
   ⟨strL "e", .dataset, strL "test", strL "test-acc", 2,
     [bareDep .dataset (strL "s")]⟩,
   ⟨strL "s", .dataset, strL "test", strL "test-acc", 3,
     [bareDep .dataset (strL "a"), bareDep .model (strL "m")]⟩]

/-- Entity ds2 of test_drop_independent_entities: no dependencies. -/
def dds2 : EntityDef := ⟨strL "ds2", .dataset, strL "test", strL "test-acc", 0, []⟩

/-- Entity ds3 of test_drop_independent_entities: depends on ds2. -/
def dds3 : EntityDef :=
  ⟨strL "ds3", .dataset, strL "test", strL "test-acc", 1,
    [bareDep .dataset (strL "ds2")]⟩

/-- Entity ds1 of test_drop_independent_entities: no dependencies. -/
def dds1 : EntityDef := ⟨strL "ds1", .dataset, strL "test", strL "test-acc", 2, []⟩

/-- Entity m2 of test_drop_independent_entities: depends on ds1 and m3. -/
def dm2 : EntityDef :=
  ⟨strL "m2", .model, strL "test", strL "test-acc", 3,
    [bareDep .dataset (strL "ds1"), bareDep .model (strL "m3")]⟩

/-- Entity m3 of test_drop_independent_entities: no dependencies. -/
def dm3 : EntityDef := ⟨strL "m3", .model, strL "test", strL "test-acc", 4, []⟩

/-- Entity m1 of test_drop_independent_entities: depends on ds2 and m2. -/
def dm1 : EntityDef :=
  ⟨strL "m1", .model, strL "test", strL "test-acc", 5,
    [bareDep .dataset (strL "ds2"), bareDep .model (strL "m2")]⟩

/-- Entity m4 of test_drop_independent_entities: depends on m3. -/
def dm4 : EntityDef :=
  ⟨strL "m4", .model, strL "test", strL "test-acc", 6,
    [bareDep .model (strL "m3")]⟩

/-- The batch of test_drop_independent_entities, in its input order. -/
def dropFuncs : List EntityDef := [dds2, dds3, dds1, dm2, dm3, dm1, dm4]

/-- A throwaway default definition for positional list access. -/
def dfltDef : EntityDef := ⟨[], .dataset, [], [], 0, []⟩

/-- The node buildGraph associates with a definition. -/
def mkNode (defs : List EntityDef) (cur : Str) (d : EntityDef) : GraphNode :=
  ⟨d,
    (d.dependencies.filter fun p => decide (depId cur p ∈ defs.map defId)).map
      (depId cur),
    d.dependencies.filter fun p => decide (depId cur p ∉ defs.map defId)⟩

/-- Whether a list of definitions forms a strict linear chain in the given
project: the first declares no dependency (none when prev is absent, the
bare path of prev otherwise) and each later one declares exactly the bare
path of its predecessor. -/
def chainOk (pfn : ProjectFullName) : Option EntityDef → List EntityDef → Bool
  | _, [] => true
  | prev, d :: rest =>
    decide (d.project_name = pfn.project_name) &&
    (match prev with
     | none => decide (d.dependencies = [])
     | some pd => decide (d.dependencies = [bareDep pd.assetType pd.name])) &&
    chainOk pfn (some d) rest

-- ===== PLANNER DEFINITIONS GO ABOVE THIS LINE =====

-- ===== THEOREMS =====

theorem splitOnChar_of_forall_ne (c : Char) (s : Str) (h : ∀ a ∈ s, a ≠ c) :
    splitOnChar c s = [s] := by
  induction s with
  | nil => rfl
  | cons x xs ih =>
    have hx : x ≠ c := h x (by simp)
    have hxs : ∀ a ∈ xs, a ≠ c := fun a ha => h a (by simp [ha])
    simp [splitOnChar, hx, ih hxs]

theorem splitOnChar_append (c : Char) (s t : Str) (h : ∀ a ∈ s, a ≠ c) :
    splitOnChar c (s ++ c :: t) = s :: splitOnChar c t := by
  induction s with
  | nil => simp [splitOnChar]
  | cons x xs ih =>
    have hx : x ≠ c := h x (by simp)
    have hxs : ∀ a ∈ xs, a ≠ c := fun a ha => h a (by simp [ha])
    simp [splitOnChar, hx, ih hxs]

theorem splitOnChar_ne_nil (c : Char) (s : Str) : splitOnChar c s ≠ [] := by
  induction s with
  | nil => simp [splitOnChar]
  | cons x xs ih =>
    by_cases hx : x = c
    · simp [splitOnChar, hx]
    · simp only [splitOnChar, if_neg hx]
      cases hsp : splitOnChar c xs with
      | nil => simp
      | cons s rest => simp

theorem two_le_splitOnChar_length (c : Char) (s : Str) (h : c ∈ s) :
    2 ≤ (splitOnChar c s).length := by
  induction s with
  | nil => simp at h
  | cons x xs ih =>
    by_cases hx : x = c
    · simp only [splitOnChar, if_pos hx, List.length_cons]
      have := List.length_pos.2 (splitOnChar_ne_nil c xs)
      omega
    · have hmem : c ∈ xs := by
        rcases List.mem_cons.1 h with h1 | h1
        · exact absurd h1.symm hx
        · exact h1
      simp only [splitOnChar, if_neg hx]
      cases hsp : splitOnChar c xs with
      | nil => exact absurd hsp (splitOnChar_ne_nil c xs)
      | cons s rest =>
        have := ih hmem
        rw [hsp] at this
        simpa using this

theorem splitOnChar_joinWith (c : Char) (parts : List Str) (hne : parts ≠ [])
    (h : ∀ p ∈ parts, ∀ a ∈ p, a ≠ c) :
    splitOnChar c (joinWith c parts) = parts := by
  induction parts with
  | nil => exact absurd rfl hne
  | cons p ps ih =>
    cases ps with
    | nil => exact splitOnChar_of_forall_ne c p (h p (by simp))
    | cons q qs =>
      have h1 : joinWith c (p :: q :: qs) = p ++ c :: joinWith c (q :: qs) := rfl
      rw [h1, splitOnChar_append c p _ (h p (by simp)),
        ih (by simp) (fun r hr a ha => h r (by simp [hr]) a ha)]

theorem mem_joinWith {c : Char} {parts : List Str} {a : Char}
    (h : a ∈ joinWith c parts) : a = c ∨ ∃ p ∈ parts, a ∈ p := by
  induction parts with
  | nil => simp [joinWith] at h
  | cons p ps ih =>
    cases ps with
    | nil => exact Or.inr ⟨p, by simp, h⟩
    | cons q qs =>
      have h1 : joinWith c (p :: q :: qs) = p ++ c :: joinWith c (q :: qs) := rfl
      rw [h1] at h
      rcases List.mem_append.1 h with h1 | h2
      · exact Or.inr ⟨p, by simp, h1⟩
      · rcases List.mem_cons.1 h2 with h3 | h4
        · exact Or.inl h3
        · rcases ih h4 with h5 | ⟨r, hr, ha⟩
          · exact Or.inl h5
          · exact Or.inr ⟨r, by simp [List.mem_cons.1 hr], ha⟩

theorem mem_joinWith_sep (c : Char) (p q : Str) (qs : List Str) :
    c ∈ joinWith c (p :: q :: qs) := by
  have h1 : joinWith c (p :: q :: qs) = p ++ c :: joinWith c (q :: qs) := rfl
  rw [h1]
  simp

theorem segChar_vals {c : Char} (h : segChar c = true) :
    c ≠ '/' ∧ c ≠ ':' ∧ c ≠ '#' ∧ c ≠ '.' := by
  refine ⟨?_, ?_, ?_, ?_⟩ <;> intro h2 <;> subst h2 <;> exact absurd h (by decide)

theorem verChar_vals {c : Char} (h : verChar c = true) :
    c ≠ '/' ∧ c ≠ ':' ∧ c ≠ '#' ∧ c ≠ '.' := by
  refine ⟨?_, ?_, ?_, ?_⟩ <;> intro h2 <;> subst h2 <;> exact absurd h (by decide)

theorem isDigitC_vals {c : Char} (h : isDigitC c = true) :
    c ≠ '/' ∧ c ≠ ':' ∧ c ≠ '#' ∧ c ≠ '.' := by
  refine ⟨?_, ?_, ?_, ?_⟩ <;> intro h2 <;> subst h2 <;> exact absurd h (by decide)

theorem digitChar_toNat {d : Nat} (h : d < 10) : (digitChar d).toNat = 48 + d := by
  interval_cases d <;> rfl

theorem isDigitC_digitChar {d : Nat} (h : d < 10) : isDigitC (digitChar d) = true := by
  interval_cases d <;> decide

theorem natDigitsAux_ne_nil (fuel n : Nat) : natDigitsAux (fuel + 1) n ≠ [] := by
  rw [natDigitsAux]
  split <;> simp

theorem natDigits_ne_nil (n : Nat) : natDigits n ≠ [] := natDigitsAux_ne_nil n n

theorem natDigitsAux_all (fuel n : Nat) (h : n < fuel) :
    (natDigitsAux fuel n).all isDigitC = true := by
  induction fuel generalizing n with
  | zero => omega
  | succ fuel ih =>
    rw [natDigitsAux]
    split
    · simpa using isDigitC_digitChar (by assumption)
    · rename_i h10
      have hlt : n / 10 < fuel := by
        have h1 : n / 10 < n := Nat.div_lt_self (by omega) (by omega)
        omega
      rw [List.all_append]
      simp [ih (n / 10) hlt, isDigitC_digitChar (Nat.mod_lt n (by omega))]

theorem natDigits_all (n : Nat) : (natDigits n).all isDigitC = true :=
  natDigitsAux_all (n + 1) n (by omega)

theorem digitsToNat_append_digit (ds : Str) (c : Char) :
    digitsToNat (ds ++ [c]) = 10 * digitsToNat ds + (c.toNat - 48) := by
  simp [digitsToNat, List.foldl_append]

theorem digitsToNat_natDigitsAux (fuel n : Nat) (h : n < fuel) :
    digitsToNat (natDigitsAux fuel n) = n := by
  induction fuel generalizing n with
  | zero => omega
  | succ fuel ih =>
    rw [natDigitsAux]
    split
    · rename_i h10
      simp [digitsToNat, digitChar_toNat h10]
    · rename_i h10
      have hlt : n / 10 < fuel := by
        have h1 : n / 10 < n := Nat.div_lt_self (by omega) (by omega)
        omega
      rw [digitsToNat_append_digit, ih (n / 10) hlt,
        digitChar_toNat (Nat.mod_lt n (by omega))]
      omega

theorem digitsToNat_natDigits (n : Nat) : digitsToNat (natDigits n) = n :=
  digitsToNat_natDigitsAux (n + 1) n (by omega)

theorem intChars_nonneg {b : Int} (h : 0 ≤ b) : intChars b = natDigits b.toNat := by
  rw [intChars, if_neg (by omega)]

theorem typeOf_value (t : AssetType) : typeOf t.value = some t := by
  cases t <;> decide

theorem value_all_segChar (t : AssetType) : t.value.all segChar = true := by
  cases t <;> decide

theorem value_ne_nil (t : AssetType) : t.value ≠ [] := by
  cases t <;> decide

theorem wf_fields {x : AssetPath} (h : wf x = true) :
    (x.asset_name ≠ [] ∧ x.asset_name.all segChar = true) ∧
    (∀ o, x.org_name = some o → o ≠ [] ∧ o.all segChar = true) ∧
    (∀ p, x.project_name = some p → p ≠ [] ∧ p.all segChar = true) ∧
    (∀ v, x.asset_version = some v → v.all verChar = true) ∧
    (∀ b, x.asset_build = some b → 0 ≤ b) ∧
    (∀ s, x.asset_selector = some s → s ≠ [] ∧ s.all segChar = true) := by
  simp only [wf, Bool.and_eq_true, decide_eq_true_eq] at h
  obtain ⟨⟨⟨⟨⟨⟨h1, h2⟩, h3⟩, h4⟩, h5⟩, h6⟩, h7⟩ := h
  refine ⟨⟨h1, h2⟩, ?_, ?_, ?_, ?_, ?_⟩
  · intro o ho
    rw [ho] at h3
    simpa [Option.all] using h3
  · intro p hp
    rw [hp] at h4
    simpa [Option.all] using h4
  · intro v hv
    rw [hv] at h5
    simpa [Option.all] using h5
  · intro b hb
    rw [hb] at h6
    simpa [Option.all] using h6
  · intro s hs
    rw [hs] at h7
    simpa [Option.all] using h7

theorem path_eq (x : AssetPath) : x.path = coreOf x ++ vbOf x ++ selOf x := by
  rcases x with ⟨n, t, o, p, v, b, s⟩
  rcases v with _ | v <;> rcases b with _ | b <;> rcases s with _ | s <;>
    simp [AssetPath.path, coreOf, vbOf, selOf, prefixParts]

theorem all_seg_no {s : Str} (h : s.all segChar = true) :
    ∀ a ∈ s, a ≠ '/' ∧ a ≠ ':' ∧ a ≠ '#' ∧ a ≠ '.' := by
  intro a ha
  exact segChar_vals (List.all_eq_true.1 h a ha)

theorem core_chars {x : AssetPath} (h : wf x = true) :
    ∀ a ∈ coreOf x, a = '/' ∨ segChar a = true := by
  obtain ⟨⟨_, hn2⟩, horg, hproj, _, _, _⟩ := wf_fields h
  intro a ha
  rcases mem_joinWith ha with h1 | ⟨q, hq, haq⟩
  · exact Or.inl h1
  · right
    have hq2 : some q ∈
        [x.org_name, x.project_name, some x.asset_type.value, some x.asset_name] := by
      simpa [prefixParts, List.mem_filterMap] using hq
    simp only [List.mem_cons, List.not_mem_nil, or_false] at hq2
    rcases hq2 with h2 | h2 | h2 | h2
    · exact List.all_eq_true.1 (horg q h2.symm).2 a haq
    · exact List.all_eq_true.1 (hproj q h2.symm).2 a haq
    · rw [Option.some_inj.1 h2] at haq
      exact List.all_eq_true.1 (value_all_segChar x.asset_type) a haq
    · rw [Option.some_inj.1 h2] at haq
      exact List.all_eq_true.1 hn2 a haq

theorem core_no_colon {x : AssetPath} (h : wf x = true) :
    ∀ a ∈ coreOf x, a ≠ ':' := by
  intro a ha
  rcases core_chars h a ha with h1 | h1
  · rw [h1]; decide
  · exact (segChar_vals h1).2.1

theorem core_no_hash {x : AssetPath} (h : wf x = true) :
    ∀ a ∈ coreOf x, a ≠ '#' := by
  intro a ha
  rcases core_chars h a ha with h1 | h1
  · rw [h1]; decide
  · exact (segChar_vals h1).2.2.1

theorem vb_no_hash {x : AssetPath} (h : wf x = true) :
    ∀ a ∈ vbOf x, a ≠ '#' := by
  obtain ⟨_, _, _, hver, hbld, _⟩ := wf_fields h
  intro a ha
  rcases hv : x.asset_version with _ | v
  · rw [vbOf, hv] at ha
    simp at ha
  · rw [vbOf, hv] at ha
    rcases hb : x.asset_build with _ | b <;> rw [hb] at ha
    · simp only [List.cons_append, List.mem_cons, List.append_nil, List.mem_append] at ha
      rcases ha with h1 | h1
      · rw [h1]; decide
      · exact (verChar_vals (List.all_eq_true.1 (hver v hv) a h1)).2.2.1
    · simp only [List.cons_append, List.mem_cons, List.mem_append] at ha
      rcases ha with h1 | h1 | h1 | h1
      · rw [h1]; decide
      · exact (verChar_vals (List.all_eq_true.1 (hver v hv) a h1)).2.2.1
      · rw [h1]; decide
      · rw [intChars_nonneg (hbld b hb)] at h1
        exact (isDigitC_vals (List.all_eq_true.1 (natDigits_all _) a h1)).2.2.1

theorem matchSegs_prefix (x : AssetPath) (h : wf x = true) (v b sel : Option Str) :
    matchSegs (coreOf x) v b sel =
      some ⟨leadSeg1 x, leadSeg2 x, x.asset_type, x.asset_name, v, b, sel⟩ := by
  obtain ⟨⟨hn1, hn2⟩, horg, hproj, _, _, _⟩ := wf_fields h
  have htv := value_all_segChar x.asset_type
  have hno : ∀ q : Str, q.all segChar = true → ∀ a ∈ q, a ≠ '/' :=
    fun q hq a ha => (all_seg_no hq a ha).1
  cases ho : x.org_name with
  | none =>
    cases hp : x.project_name with
    | none =>
      have hpp : prefixParts x = [x.asset_type.value, x.asset_name] := by
        simp [prefixParts, ho, hp]
      have hsp : splitOnChar '/' (coreOf x) = [x.asset_type.value, x.asset_name] := by
        rw [coreOf, hpp]
        refine splitOnChar_joinWith '/' _ (by simp) ?_
        intro q hq
        simp only [List.mem_cons, List.not_mem_nil, or_false] at hq
        rcases hq with h1 | h1 <;> rw [h1]
        · exact hno _ htv
        · exact hno _ hn2
      rw [matchSegs, hsp]
      simp [hn1, hn2, typeOf_value, leadSeg1, leadSeg2, ho, hp]
    | some p =>
      obtain ⟨hp1, hp2⟩ := hproj p hp
      have hpp : prefixParts x = [p, x.asset_type.value, x.asset_name] := by
        simp [prefixParts, ho, hp]
      have hsp : splitOnChar '/' (coreOf x) = [p, x.asset_type.value, x.asset_name] := by
        rw [coreOf, hpp]
        refine splitOnChar_joinWith '/' _ (by simp) ?_
        intro q hq
        simp only [List.mem_cons, List.not_mem_nil, or_false] at hq
        rcases hq with h1 | h1 | h1 <;> rw [h1]
        · exact hno _ hp2
        · exact hno _ htv
        · exact hno _ hn2
      rw [matchSegs, hsp]
      simp [hn1, hn2, hp1, hp2, typeOf_value, leadSeg1, leadSeg2, ho, hp]
  | some o =>
    obtain ⟨ho1, ho2⟩ := horg o ho
    cases hp : x.project_name with
    | none =>
      have hpp : prefixParts x = [o, x.asset_type.value, x.asset_name] := by
        simp [prefixParts, ho, hp]
      have hsp : splitOnChar '/' (coreOf x) = [o, x.asset_type.value, x.asset_name] := by
        rw [coreOf, hpp]
        refine splitOnChar_joinWith '/' _ (by simp) ?_
        intro q hq
        simp only [List.mem_cons, List.not_mem_nil, or_false] at hq
        rcases hq with h1 | h1 | h1 <;> rw [h1]
        · exact hno _ ho2
        · exact hno _ htv
        · exact hno _ hn2
      rw [matchSegs, hsp]
      simp [hn1, hn2, ho1, ho2, typeOf_value, leadSeg1, leadSeg2, ho, hp]
    | some p =>
      obtain ⟨hp1, hp2⟩ := hproj p hp
      have hpp : prefixParts x = [o, p, x.asset_type.value, x.asset_name] := by
        simp [prefixParts, ho, hp]
      have hsp : splitOnChar '/' (coreOf x) =
          [o, p, x.asset_type.value, x.asset_name] := by
        rw [coreOf, hpp]
        refine splitOnChar_joinWith '/' _ (by simp) ?_
        intro q hq
        simp only [List.mem_cons, List.not_mem_nil, or_false] at hq
        rcases hq with h1 | h1 | h1 | h1 <;> rw [h1]
        · exact hno _ ho2
        · exact hno _ hp2
        · exact hno _ htv
        · exact hno _ hn2
      rw [matchSegs, hsp]
      simp [hn1, hn2, ho1, ho2, hp1, hp2, typeOf_value, leadSeg1, leadSeg2, ho, hp]

theorem matchVersion_core (x : AssetPath) (h : wf x = true) (sel : Option Str) :
    matchVersion (coreOf x ++ vbOf x) sel =
      matchSegs (coreOf x) x.asset_version (bdigits x) sel := by
  obtain ⟨_, _, _, hver, hbld, _⟩ := wf_fields h
  have hcol := core_no_colon h
  cases hv : x.asset_version with
  | none =>
    have hvb : vbOf x = [] := by rw [vbOf, hv]
    rw [hvb, List.append_nil, matchVersion,
      splitOnChar_of_forall_ne ':' (coreOf x) hcol]
    simp [bdigits, hv]
  | some v =>
    have hv2 := hver v hv
    have hvcol : ∀ a ∈ v, a ≠ ':' := fun a ha =>
      (verChar_vals (List.all_eq_true.1 hv2 a ha)).2.1
    have hvdot : ∀ a ∈ v, a ≠ '.' := fun a ha =>
      (verChar_vals (List.all_eq_true.1 hv2 a ha)).2.2.2
    cases hb : x.asset_build with
    | none =>
      have hvb : vbOf x = ':' :: v := by rw [vbOf, hv, hb]; simp
      have hsp : splitOnChar ':' (coreOf x ++ ':' :: v) = [coreOf x, v] := by
        rw [splitOnChar_append ':' _ _ hcol, splitOnChar_of_forall_ne ':' v hvcol]
      rw [hvb, matchVersion, hsp]
      simp [splitOnChar_of_forall_ne '.' v hvdot, hv2, bdigits, hv, hb]
    | some b =>
      have hb0 : 0 ≤ b := hbld b hb
      have hdsall : (intChars b).all isDigitC = true := by
        rw [intChars_nonneg hb0]
        exact natDigits_all _
      have hdcol : ∀ a ∈ v ++ '.' :: intChars b, a ≠ ':' := by
        intro a ha
        rcases List.mem_append.1 ha with h1 | h1
        · exact hvcol a h1
        · rcases List.mem_cons.1 h1 with h2 | h2
          · rw [h2]; decide
          · exact (isDigitC_vals (List.all_eq_true.1 hdsall a h2)).2.1
      have hddot : ∀ a ∈ intChars b, a ≠ '.' := fun a ha =>
        (isDigitC_vals (List.all_eq_true.1 hdsall a ha)).2.2.2
      have hvb : coreOf x ++ vbOf x = coreOf x ++ ':' :: (v ++ '.' :: intChars b) := by
        rw [vbOf, hv, hb]
        simp
      have hsp1 : splitOnChar ':' (coreOf x ++ ':' :: (v ++ '.' :: intChars b)) =
          [coreOf x, v ++ '.' :: intChars b] := by
        rw [splitOnChar_append ':' _ _ hcol, splitOnChar_of_forall_ne ':' _ hdcol]
      have hsp2 : splitOnChar '.' (v ++ '.' :: intChars b) = [v, intChars b] := by
        rw [splitOnChar_append '.' _ _ hvdot, splitOnChar_of_forall_ne '.' _ hddot]
      rw [hvb, matchVersion, hsp1]
      simp [hsp2, hv2, hdsall, bdigits, hv, hb]

theorem matchAssetPattern_path (x : AssetPath) (h : wf x = true) :
    matchAssetPattern x.path =
      matchVersion (coreOf x ++ vbOf x) x.asset_selector := by
  obtain ⟨_, _, _, _, _, hsel⟩ := wf_fields h
  have hnohash : ∀ a ∈ coreOf x ++ vbOf x, a ≠ '#' := by
    intro a ha
    rcases List.mem_append.1 ha with h1 | h1
    · exact core_no_hash h a h1
    · exact vb_no_hash h a h1
  cases hs : x.asset_selector with
  | none =>
    have h1 : x.path = coreOf x ++ vbOf x := by
      rw [path_eq, selOf, hs, List.append_nil]
    rw [h1, matchAssetPattern, splitOnChar_of_forall_ne '#' _ hnohash]
  | some s =>
    obtain ⟨hs1, hs2⟩ := hsel s hs
    have h1 : x.path = (coreOf x ++ vbOf x) ++ '#' :: s := by
      rw [path_eq, selOf, hs, List.append_assoc]
    have hsp : splitOnChar '#' ((coreOf x ++ vbOf x) ++ '#' :: s) =
        [coreOf x ++ vbOf x, s] := by
      rw [splitOnChar_append '#' _ _ hnohash,
        splitOnChar_of_forall_ne '#' s (fun a ha =>
          (segChar_vals (List.all_eq_true.1 hs2 a ha)).2.2.1)]
    rw [h1, matchAssetPattern, hsp]
    simp [hs1, hs2]

theorem matchAssetPattern_path_groups (x : AssetPath) (h : wf x = true) :
    matchAssetPattern x.path = some
      ⟨leadSeg1 x, leadSeg2 x, x.asset_type, x.asset_name,
        x.asset_version, bdigits x, x.asset_selector⟩ := by
  rw [matchAssetPattern_path x h, matchVersion_core x h, matchSegs_prefix x h]

theorem slash_mem_core (x : AssetPath) : '/' ∈ coreOf x := by
  rw [coreOf]
  cases ho : x.org_name with
  | none =>
    cases hp : x.project_name with
    | none =>
      have hpp : prefixParts x = [x.asset_type.value, x.asset_name] := by
        simp [prefixParts, ho, hp]
      rw [hpp]
      exact mem_joinWith_sep '/' _ _ _
    | some p =>
      have hpp : prefixParts x = [p, x.asset_type.value, x.asset_name] := by
        simp [prefixParts, ho, hp]
      rw [hpp]
      exact mem_joinWith_sep '/' _ _ _
  | some o =>
    cases hp : x.project_name with
    | none =>
      have hpp : prefixParts x = [o, x.asset_type.value, x.asset_name] := by
        simp [prefixParts, ho, hp]
      rw [hpp]
      exact mem_joinWith_sep '/' _ _ _
    | some p =>
      have hpp : prefixParts x = [o, p, x.asset_type.value, x.asset_name] := by
        simp [prefixParts, ho, hp]
      rw [hpp]
      exact mem_joinWith_sep '/' _ _ _

theorem parse_path_eq (x : AssetPath) (h : wf x = true) :
    AssetPath.parse x.path none = Except.ok (canonical x) := by
  obtain ⟨_, _, _, _, hbld, _⟩ := wf_fields h
  have hslash : '/' ∈ x.path := by
    rw [path_eq]
    exact List.mem_append.2 (Or.inl (List.mem_append.2 (Or.inl (slash_mem_core x))))
  have hlen : ¬ (splitOnChar '/' x.path).length < 2 := by
    have := two_le_splitOnChar_length '/' x.path hslash
    omega
  have hbuild :
      (match bdigits x with
        | none => (none : Option Int)
        | some [] => none
        | some ds => some (Int.ofNat (digitsToNat ds))) =
      (match x.asset_version with
        | some _ => x.asset_build
        | none => none) := by
    cases hv : x.asset_version with
    | none => simp [bdigits, hv]
    | some v =>
      cases hb : x.asset_build with
      | none => simp [bdigits, hv, hb]
      | some b =>
        have hb0 : 0 ≤ b := hbld b hb
        have hds : intChars b = natDigits b.toNat := intChars_nonneg hb0
        cases hd : natDigits b.toNat with
        | nil => exact absurd hd (natDigits_ne_nil _)
        | cons c cs =>
          have h1 : bdigits x = some (c :: cs) := by
            simp [bdigits, hv, hb, hds, hd]
          have h2 : digitsToNat (c :: cs) = b.toNat := by
            rw [← hd, digitsToNat_natDigits]
          rw [h1]
          simp [h2, hv, hb, Int.toNat_of_nonneg hb0]
  have hseg1 :
      (match leadSeg2 x with
        | some p => some p
        | none => leadSeg1 x) =
      (match x.project_name with
        | some p => some p
        | none => x.org_name) := by
    cases ho : x.org_name <;> cases hp : x.project_name <;>
      simp [leadSeg1, leadSeg2, ho, hp]
  have hseg2 :
      (match leadSeg2 x with
        | some _ => leadSeg1 x
        | none => (none : Option Str)) =
      (match x.project_name with
        | some _ => x.org_name
        | none => none) := by
    cases ho : x.org_name <;> cases hp : x.project_name <;>
      simp [leadSeg1, leadSeg2, ho, hp]
  simp only [AssetPath.parse, if_neg hlen, matchAssetPattern_path_groups x h]
  simp only [canonical, ← hbuild, ← hseg1, ← hseg2]
  rfl

theorem path_canonical (x : AssetPath) : (canonical x).path = x.path := by
  rcases x with ⟨n, t, o, p, v, b, s⟩
  rcases o with _ | o <;> rcases p with _ | p <;> rcases v with _ | v <;>
    simp [canonical, AssetPath.path, prefixParts]

/-- C1: for every string s that is a valid canonical asset path (the
canonical serialization of some grammar-conformant AssetPath),
AssetPath.parse(s).path() equals s. -/
theorem c1_parse_canonical_roundtrip (s : Str)
    (h : ∃ x : AssetPath, wf x = true ∧ AssetPath.path x = s) :
    ∃ y : AssetPath, AssetPath.parse s none = Except.ok y ∧ AssetPath.path y = s := by
  obtain ⟨x, hwf, rfl⟩ := h
  exact ⟨canonical x, parse_path_eq x hwf, path_canonical x⟩

/-- Witness for C1 at the concrete canonical path
acme/proj/datasets/foo:v1.3#sel. -/
theorem c1_witness :
    ∃ y : AssetPath,
      AssetPath.parse (strL "acme/proj/datasets/foo:v1.3#sel") none = Except.ok y ∧
      AssetPath.path y = strL "acme/proj/datasets/foo:v1.3#sel" :=
  c1_parse_canonical_roundtrip _
    ⟨⟨strL "foo", AssetType.dataset, some (strL "acme"), some (strL "proj"),
      some (strL "v1"), some 3, some (strL "sel")⟩, by decide, by decide⟩

/-- C2 is false as stated: for the AssetPath with a build but no version,
parsing the serialized path loses the build, a difference that does not
concern the org or project fields. -/
theorem c2_counterexample :
    AssetPath.parse
        (AssetPath.path ⟨strL "n", AssetType.dataset, none, none, none, some 1, none⟩)
        none =
      Except.ok ⟨strL "n", AssetType.dataset, none, none, none, none, none⟩ ∧
    (⟨strL "n", AssetType.dataset, none, none, none, some 1, none⟩ :
        AssetPath).asset_build = some 1 := by
  exact ⟨rfl, rfl⟩

/-- C2 (amended): for every grammar-conformant AssetPath x that carries a
build only when it carries a version, parse(path(x)) equals x exactly, except
that when the org is set and the project absent the parsed value carries the
org in its project slot and no org. -/
theorem c2_parse_path_org_project (x : AssetPath) (h : wf x = true)
    (hb : x.asset_build = none ∨ x.asset_version ≠ none) :
    AssetPath.parse x.path none = Except.ok
      (if x.project_name = none ∧ x.org_name ≠ none then
        { x with org_name := none, project_name := x.org_name }
      else x) := by
  rw [parse_path_eq x h]
  congr 1
  rcases x with ⟨n, t, o, p, v, b, s⟩
  rcases o with _ | o <;> rcases p with _ | p <;> rcases v with _ | v <;>
    rcases b with _ | b <;> simp_all [canonical]

/-- Witness for C2 (amended) at the org-only path o/datasets/n. -/
theorem c2_witness :
    AssetPath.parse
        (AssetPath.path ⟨strL "n", AssetType.dataset, some (strL "o"),
          none, none, none, none⟩) none =
      Except.ok ⟨strL "n", AssetType.dataset, none, some (strL "o"),
        none, none, none⟩ :=
  c2_parse_path_org_project _ (by decide) (Or.inl rfl)

/-- C9: url raises exactly when the org or the project is absent, and
otherwise returns the base joined with the canonical path. -/
theorem c9_url_error_iff (x : AssetPath) (base : Str) :
    ((∃ e, x.url base = Except.error e) ↔
      x.org_name = none ∨ x.project_name = none) ∧
    (x.org_name ≠ none → x.project_name ≠ none →
      x.url base = Except.ok (base ++ '/' :: x.path)) := by
  rcases x with ⟨n, t, o, p, v, b, s⟩
  rcases o with _ | o <;> rcases p with _ | p <;> simp [AssetPath.url]

/-- Witness for C9 at a concrete path with org and project present. -/
theorem c9_witness :
    ((∃ e, AssetPath.url ⟨strL "n", AssetType.dataset, some (strL "o"),
        some (strL "p"), none, none, none⟩ (strL "base") = Except.error e) ↔
      (⟨strL "n", AssetType.dataset, some (strL "o"), some (strL "p"),
        none, none, none⟩ : AssetPath).org_name = none ∨
      (⟨strL "n", AssetType.dataset, some (strL "o"), some (strL "p"),
        none, none, none⟩ : AssetPath).project_name = none) ∧
    ((⟨strL "n", AssetType.dataset, some (strL "o"), some (strL "p"),
        none, none, none⟩ : AssetPath).org_name ≠ none →
      (⟨strL "n", AssetType.dataset, some (strL "o"), some (strL "p"),
        none, none, none⟩ : AssetPath).project_name ≠ none →
      AssetPath.url ⟨strL "n", AssetType.dataset, some (strL "o"),
          some (strL "p"), none, none, none⟩ (strL "base") =
        Except.ok (strL "base" ++ '/' ::
          AssetPath.path ⟨strL "n", AssetType.dataset, some (strL "o"),
            some (strL "p"), none, none, none⟩)) :=
  c9_url_error_iff _ _

/-- C10: when the version is absent the build is omitted entirely from the
serialized path, so the path coincides with that of the same AssetPath
without a build. -/
theorem c10_build_omitted_without_version (x : AssetPath)
    (h : x.asset_version = none) :
    x.path = AssetPath.path { x with asset_build := none } := by
  rcases x with ⟨n, t, o, p, v, b, s⟩
  cases h
  simp [AssetPath.path]

/-- Witness for C10 at a concrete versionless AssetPath carrying build 7. -/
theorem c10_witness :
    AssetPath.path ⟨strL "n", AssetType.dataset, none, none, none, some 7, none⟩ =
      AssetPath.path ⟨strL "n", AssetType.dataset, none, none, none, none, none⟩ :=
  c10_build_omitted_without_version _ rfl

/-- C3: cycle enumeration on the graph built from the four entities m
(depending on a and e), a (on m and e), e (on s) and s (on a and m) returns
exactly 5 distinct cycles: the stack-based depth-first search reports every
distinct cycle, not one per connected component. -/
theorem c3_five_cycles :
    (findCycles (buildGraph cycleDefs (strL "test"))).length = 5 ∧
    (findCycles (buildGraph cycleDefs (strL "test"))).Nodup := by
  decide

theorem unresolvedOf_project (g : Graph) (current : Str) (i : EntityId)
    (p : AssetPath) (h : (i, p) ∈ unresolvedOf g current) :
    p.project_name.getD current = current := by
  simp only [unresolvedOf, List.mem_flatMap, List.mem_map, List.mem_filter] at h
  obtain ⟨n, hn, q, ⟨hq1, hq2⟩, heq⟩ := h
  injection heq with h1 h2
  subst h2
  exact of_decide_eq_true hq2

theorem unresolved_head (defs : List EntityDef) (current : Str) (i : EntityId)
    (p : AssetPath)
    (h : checkEntityDependencies defs current =
      Except.error (PlanError.unresolvedDependency i p)) :
    p.project_name.getD current = current := by
  simp only [checkEntityDependencies] at h
  cases hc : findCycles (buildGraph defs current) with
  | cons c cs => rw [hc] at h; simp at h
  | nil =>
    rw [hc] at h
    cases hu : unresolvedOf (buildGraph defs current) current with
    | nil => rw [hu] at h; simp at h
    | cons jq rest =>
      rw [hu] at h
      rcases jq with ⟨j, q⟩
      simp only [Except.error.injEq, PlanError.unresolvedDependency.injEq] at h
      obtain ⟨h1, h2⟩ := h
      have hmem : (j, q) ∈ unresolvedOf (buildGraph defs current) current := by
        rw [hu]; exact List.mem_cons_self _ _
      rw [← h2]
      exact unresolvedOf_project _ _ _ _ hmem

/-- C8: a dependency path whose project differs from the current project is
never validated against the local definition set: checking the dependencies
of any batch never fails with an unresolved-dependency error carrying such a
path, even when no definition of the batch matches it. -/
theorem c8_cross_project_never_unresolved
    (defs : List EntityDef) (current : Str) (d : EntityDef) (p : AssetPath)
    (i : EntityId) (hd : d ∈ defs) (hp : p ∈ d.dependencies)
    (hproj : p.project_name ≠ none) (hcur : p.project_name ≠ some current) :
    checkEntityDependencies defs current ≠
      Except.error (PlanError.unresolvedDependency i p) := by
  intro h
  have h2 := unresolved_head defs current i p h
  rcases hg : p.project_name with _ | pr
  · exact hproj hg
  · rw [hg, Option.getD_some] at h2
    exact hcur (by rw [hg, h2])

/-- Witness for C8: the external_project dependency of the test batch never
produces an unresolved-dependency error. -/
theorem c8_witness :
    checkEntityDependencies
        [⟨strL "m1", AssetType.model, strL "test", strL "test-acc", 0,
          [⟨strL "ds1", AssetType.dataset, none, some (strL "external_project"),
            none, none, none⟩]⟩] (strL "test") ≠
      Except.error (PlanError.unresolvedDependency
        ⟨strL "test", AssetType.model, strL "m1"⟩
        ⟨strL "ds1", AssetType.dataset, none, some (strL "external_project"),
          none, none, none⟩) :=
  c8_cross_project_never_unresolved _ _ _ _ _
    (List.mem_cons_self _ _) (List.mem_cons_self _ _) (by decide) (by decide)

theorem findNode_mem {g : Graph} {i : EntityId} {nd : GraphNode}
    (h : findNode g i = some nd) : (i, nd) ∈ g := by
  induction g with
  | nil => simp [findNode] at h
  | cons e rest ih =>
    rcases e with ⟨j, m⟩
    rw [findNode] at h
    by_cases hj : j = i
    · rw [if_pos hj] at h
      injection h with h2
      subst hj h2
      exact List.mem_cons_self _ _
    · rw [if_neg hj] at h
      exact List.mem_cons_of_mem _ (ih h)

theorem buildGraph_no_deps {defs : List EntityDef} {cur : Str}
    (h : ∀ d ∈ defs, d.dependencies = []) :
    ∀ e ∈ buildGraph defs cur, e.2.localDeps = [] ∧ e.2.externalDeps = [] := by
  intro e he
  simp only [buildGraph, List.mem_map] at he
  obtain ⟨d, hd, rfl⟩ := he
  simp [h d hd]

theorem adjOf_nil {g : Graph} (h : ∀ e ∈ g, e.2.localDeps = []) (i : EntityId) :
    adjOf g i = [] := by
  rw [adjOf]
  cases hf : findNode g i with
  | none => rfl
  | some nd => exact h _ (findNode_mem hf)

theorem dfsCycles_nil_adj {adj : EntityId → List EntityId}
    (h : ∀ v, adj v = []) (fuel : Nat) (stack : List EntityId) (v : EntityId) :
    dfsCycles adj fuel stack v = [] := by
  cases fuel with
  | zero => rfl
  | succ f => simp [dfsCycles, h v]

theorem findCycles_nil {g : Graph} (h : ∀ e ∈ g, e.2.localDeps = []) :
    findCycles g = [] := by
  rw [findCycles]
  have h2 : (g.map Prod.fst).flatMap
      (fun i => dfsCycles (adjOf g) (g.length + 1) [] i) = [] :=
    List.flatMap_eq_nil_iff.2 fun i _ => dfsCycles_nil_adj (adjOf_nil h) _ _ _
  rw [h2]
  rfl

theorem unresolvedOf_nil {g : Graph} {cur : Str}
    (h : ∀ e ∈ g, e.2.externalDeps = []) : unresolvedOf g cur = [] := by
  rw [unresolvedOf]
  refine List.flatMap_eq_nil_iff.2 fun e he => ?_
  rw [h e he]
  rfl

theorem check_no_deps {defs : List EntityDef} {cur : Str}
    (h : ∀ d ∈ defs, d.dependencies = []) :
    checkEntityDependencies defs cur = Except.ok () := by
  have hg := @buildGraph_no_deps defs cur h
  simp only [checkEntityDependencies]
  rw [findCycles_nil (fun e he => (hg e he).1),
    unresolvedOf_nil (fun e he => (hg e he).2)]

theorem nodeDepth_zero {g : Graph} (h : ∀ v, adjOf g v = []) (fuel : Nat)
    (i : EntityId) : nodeDepth g fuel i = 0 := by
  cases fuel with
  | zero => rfl
  | succ f => rw [nodeDepth, h i]

theorem foldl_max_zero {l : List Nat} (h : ∀ x ∈ l, x = 0) :
    l.foldl Nat.max 0 = 0 := by
  induction l with
  | nil => rfl
  | cons x xs ih =>
    have hx : x = 0 := h x (by simp)
    rw [List.foldl_cons, hx]
    exact ih fun y hy => h y (by simp [hy])

/-- C4 (amended): for every run of at least two definitions none of which
declares a dependency, the plan is exactly one Parallel step containing all
of them, the datasets and the models grouped separately.  (A run of exactly
one such definition instead yields one Sequential step, see the
counterexample.) -/
theorem c4_parallel_plan (r : Run)
    (h : ∀ d ∈ r.definitions, d.dependencies = [])
    (h2 : 2 ≤ r.definitions.length) :
    buildExecutionPlan r = Except.ok
      ⟨[PlanOp.parallel
          (r.definitions.filter fun d => decide (d.assetType = AssetType.dataset))
          (r.definitions.filter fun d => decide (d.assetType = AssetType.model))]⟩ := by
  rcases r with ⟨pfn, defs⟩
  simp only at h h2 ⊢
  have hg := @buildGraph_no_deps defs pfn.project_name h
  have hadj := adjOf_nil (fun e he => (hg e he).1)
  have hdep : ∀ d : EntityDef,
      nodeDepth (buildGraph defs pfn.project_name) defs.length (defId d) = 0 :=
    fun d => nodeDepth_zero hadj _ _
  simp only [buildExecutionPlan, check_no_deps h]
  have hfold : (defs.map fun d =>
      nodeDepth (buildGraph defs pfn.project_name) defs.length (defId d)).foldl
        Nat.max 0 = 0 := by
    refine foldl_max_zero ?_
    intro x hx
    obtain ⟨d, _, rfl⟩ := List.mem_map.1 hx
    exact hdep d
  rw [hfold]
  have hfilter : (defs.filter fun d => decide
      (nodeDepth (buildGraph defs pfn.project_name) defs.length (defId d) = 0)) =
        defs :=
    List.filter_eq_self.2 fun d _ => decide_eq_true (hdep d)
  have hr1 : List.range 1 = [0] := by simp [List.range_succ]
  simp only [hr1, List.flatMap_cons, List.flatMap_nil, List.append_nil, hfilter]
  match defs, h2 with
  | d1 :: d2 :: rest, _ => rfl

/-- C4 is false as stated: a run consisting of one dependency-free
definition yields one Sequential step, not a Parallel step containing all
of the definitions. -/
theorem c4_counterexample :
    buildExecutionPlan ⟨⟨strL "test-acc", strL "test"⟩,
        [⟨strL "ds1", AssetType.dataset, strL "test", strL "test-acc", 0, []⟩]⟩ =
      Except.ok ⟨[PlanOp.sequential
        ⟨strL "ds1", AssetType.dataset, strL "test", strL "test-acc", 0, []⟩ []]⟩ ∧
    buildExecutionPlan ⟨⟨strL "test-acc", strL "test"⟩,
        [⟨strL "ds1", AssetType.dataset, strL "test", strL "test-acc", 0, []⟩]⟩ ≠
      Except.ok ⟨[PlanOp.parallel
        [⟨strL "ds1", AssetType.dataset, strL "test", strL "test-acc", 0, []⟩] []]⟩ := by
  constructor
  · rfl
  · intro hcontra
    rw [show buildExecutionPlan ⟨⟨strL "test-acc", strL "test"⟩,
        [⟨strL "ds1", AssetType.dataset, strL "test", strL "test-acc", 0, []⟩]⟩ =
      Except.ok ⟨[PlanOp.sequential
        ⟨strL "ds1", AssetType.dataset, strL "test", strL "test-acc", 0, []⟩ []]⟩
      from rfl] at hcontra
    simp at hcontra

/-- Witness for C4 (amended) at the five independent definitions of
test_build_execution_plan_parallel: one Parallel step with the three
datasets and the two models. -/
theorem c4_witness :
    buildExecutionPlan ⟨⟨strL "test-acc", strL "test"⟩,
        [⟨strL "ds1", AssetType.dataset, strL "test", strL "test-acc", 0, []⟩,
         ⟨strL "ds2", AssetType.dataset, strL "test", strL "test-acc", 1, []⟩,
         ⟨strL "ds3", AssetType.dataset, strL "test", strL "test-acc", 2, []⟩,
         ⟨strL "m1", AssetType.model, strL "test", strL "test-acc", 3, []⟩,
         ⟨strL "m2", AssetType.model, strL "test", strL "test-acc", 4, []⟩]⟩ =
      Except.ok
        ⟨[PlanOp.parallel
            ([⟨strL "ds1", AssetType.dataset, strL "test", strL "test-acc", 0, []⟩,
              ⟨strL "ds2", AssetType.dataset, strL "test", strL "test-acc", 1, []⟩,
              ⟨strL "ds3", AssetType.dataset, strL "test", strL "test-acc", 2, []⟩,
              ⟨strL "m1", AssetType.model, strL "test", strL "test-acc", 3, []⟩,
              ⟨strL "m2", AssetType.model, strL "test", strL "test-acc", 4, []⟩].filter
              fun d => decide (d.assetType = AssetType.dataset))
            ([⟨strL "ds1", AssetType.dataset, strL "test", strL "test-acc", 0, []⟩,
              ⟨strL "ds2", AssetType.dataset, strL "test", strL "test-acc", 1, []⟩,
              ⟨strL "ds3", AssetType.dataset, strL "test", strL "test-acc", 2, []⟩,
              ⟨strL "m1", AssetType.model, strL "test", strL "test-acc", 3, []⟩,
              ⟨strL "m2", AssetType.model, strL "test", strL "test-acc", 4, []⟩].filter
              fun d => decide (d.assetType = AssetType.model))]⟩ :=
  c4_parallel_plan _ (by decide) (by decide)

/-- C7: when the target is present and keep_dependencies is false, the
result is exactly one element, the target definition with its dependency
list cleared; the clearing produces a new value (distinct from the stored
definition, which keeps its dependencies), so the input definitions are
untouched. -/
theorem c7_drop_without_deps (defs : List EntityDef) (target : AssetPath)
    (td : EntityDef)
    (hfind : defs.find? (fun d => decide (defId d =
      ⟨target.project_name.getD [], target.asset_type, target.asset_name⟩)) =
        some td)
    (hdeps : td.dependencies ≠ []) :
    dropIndependentEntities defs target false =
      Except.ok [⟨td.name, td.assetType, td.project_name, td.account_name,
        td.version_id, []⟩] ∧
    td ∈ defs ∧
    (⟨td.name, td.assetType, td.project_name, td.account_name,
      td.version_id, []⟩ : EntityDef) ≠ td := by
  refine ⟨?_, List.mem_of_find?_eq_some hfind, ?_⟩
  · simp only [dropIndependentEntities, hfind]
    rfl
  · intro hco
    have h2 := congrArg EntityDef.dependencies hco
    simp only at h2
    exact hdeps h2.symm

/-- Witness for C7 at the batch of test_drop_independent_entities_no_dependencies:
dropping m1, which depends on ds1, returns m1 with an empty dependency
list. -/
theorem c7_witness :
    dropIndependentEntities
        [⟨strL "ds1", AssetType.dataset, strL "test", strL "test-acc", 0, []⟩,
         ⟨strL "m1", AssetType.model, strL "test", strL "test-acc", 1,
           [bareDep AssetType.dataset (strL "ds1")]⟩]
        ⟨strL "m1", AssetType.model, some (strL "test-acc"), some (strL "test"),
          none, none, none⟩ false =
      Except.ok [⟨strL "m1", AssetType.model, strL "test", strL "test-acc", 1, []⟩] ∧
    (⟨strL "m1", AssetType.model, strL "test", strL "test-acc", 1,
      [bareDep AssetType.dataset (strL "ds1")]⟩ : EntityDef) ∈
      [⟨strL "ds1", AssetType.dataset, strL "test", strL "test-acc", 0, []⟩,
       ⟨strL "m1", AssetType.model, strL "test", strL "test-acc", 1,
         [bareDep AssetType.dataset (strL "ds1")]⟩] ∧
    (⟨strL "m1", AssetType.model, strL "test", strL "test-acc", 1, []⟩ : EntityDef) ≠
      ⟨strL "m1", AssetType.model, strL "test", strL "test-acc", 1,
        [bareDep AssetType.dataset (strL "ds1")]⟩ :=
  c7_drop_without_deps
    [⟨strL "ds1", AssetType.dataset, strL "test", strL "test-acc", 0, []⟩,
     ⟨strL "m1", AssetType.model, strL "test", strL "test-acc", 1,
       [bareDep AssetType.dataset (strL "ds1")]⟩]
    ⟨strL "m1", AssetType.model, some (strL "test-acc"), some (strL "test"),
      none, none, none⟩
    ⟨strL "m1", AssetType.model, strL "test", strL "test-acc", 1,
      [bareDep AssetType.dataset (strL "ds1")]⟩
    (by decide) (by decide)

theorem mem_addNew {α : Type} [DecidableEq α] (acc xs : List α) (x : α) :
    x ∈ addNew acc xs ↔ x ∈ acc ∨ x ∈ xs := by
  induction xs generalizing acc with
  | nil => simp [addNew]
  | cons y ys ih =>
    rw [addNew]
    by_cases hy : y ∈ acc
    · rw [if_pos hy, ih]
      constructor
      · rintro (h | h)
        · exact Or.inl h
        · exact Or.inr (List.mem_cons_of_mem _ h)
      · rintro (h | h)
        · exact Or.inl h
        · rcases List.mem_cons.1 h with h2 | h2
          · subst h2; exact Or.inl hy
          · exact Or.inr h2
    · rw [if_neg hy, ih]
      constructor
      · rintro (h | h)
        · rcases List.mem_append.1 h with h2 | h2
          · exact Or.inl h2
          · simp only [List.mem_singleton] at h2
            subst h2
            exact Or.inr (List.mem_cons_self _ _)
        · exact Or.inr (List.mem_cons_of_mem _ h)
      · rintro (h | h)
        · exact Or.inl (List.mem_append.2 (Or.inl h))
        · rcases List.mem_cons.1 h with h2 | h2
          · subst h2; exact Or.inl (List.mem_append.2 (Or.inr (by simp)))
          · exact Or.inr h2

theorem addNew_nodup {α : Type} [DecidableEq α] {acc : List α} (xs : List α)
    (h : acc.Nodup) : (addNew acc xs).Nodup := by
  induction xs generalizing acc with
  | nil => exact h
  | cons y ys ih =>
    rw [addNew]
    by_cases hy : y ∈ acc
    · rw [if_pos hy]; exact ih h
    · rw [if_neg hy]
      refine ih ?_
      rw [List.nodup_append]
      refine ⟨h, List.nodup_singleton y, ?_⟩
      intro a ha hb
      simp only [List.mem_singleton] at hb
      subst hb
      exact hy ha

theorem addNew_append_ex {α : Type} [DecidableEq α] (acc xs : List α) :
    ∃ t, addNew acc xs = acc ++ t := by
  induction xs generalizing acc with
  | nil => exact ⟨[], by simp [addNew]⟩
  | cons y ys ih =>
    rw [addNew]
    by_cases hy : y ∈ acc
    · rw [if_pos hy]; exact ih acc
    · rw [if_neg hy]
      obtain ⟨t, ht⟩ := ih (acc ++ [y])
      exact ⟨[y] ++ t, by rw [ht, List.append_assoc]⟩

theorem closeIter_grow {α : Type} [DecidableEq α] (adj : α → List α)
    (k : Nat) (acc : List α) : acc ⊆ closeIter adj k acc := by
  induction k generalizing acc with
  | zero => exact fun a ha => ha
  | succ k ih =>
    rw [closeIter]
    by_cases hfix : addNew acc (acc.flatMap adj) = acc
    · rw [if_pos hfix]
      exact fun a ha => ha
    · rw [if_neg hfix]
      intro a ha
      refine ih _ ?_
      exact (mem_addNew _ _ _).2 (Or.inl ha)

theorem closeIter_sound {α : Type} [DecidableEq α] (adj : α → List α)
    (P : α → Prop) (hstep : ∀ v, P v → ∀ w ∈ adj v, P w)
    (k : Nat) (acc : List α) (hacc : ∀ x ∈ acc, P x) :
    ∀ x ∈ closeIter adj k acc, P x := by
  induction k generalizing acc with
  | zero => exact hacc
  | succ k ih =>
    rw [closeIter]
    by_cases hfix : addNew acc (acc.flatMap adj) = acc
    · rw [if_pos hfix]; exact hacc
    · rw [if_neg hfix]
      refine ih _ ?_
      intro x hx
      rcases (mem_addNew _ _ _).1 hx with h1 | h1
      · exact hacc x h1
      · obtain ⟨v, hv, hxv⟩ := List.mem_flatMap.1 h1
        exact hstep v (hacc v hv) x hxv

theorem closeIter_closed {α : Type} [DecidableEq α] (adj : α → List α)
    (U : List α) (hU : U.Nodup) (hadj : ∀ v, adj v ⊆ U) (k : Nat) :
    ∀ acc, acc.Nodup → acc ⊆ U → U.length ≤ k + acc.length →
      ∀ v ∈ closeIter adj k acc, adj v ⊆ closeIter adj k acc := by
  induction k with
  | zero =>
    intro acc hnd hsub hlen v hv w hw
    by_contra hwa
    have hnd2 : (acc ++ [w]).Nodup := by
      rw [List.nodup_append]
      refine ⟨hnd, List.nodup_singleton w, ?_⟩
      intro a ha hb
      simp only [List.mem_singleton] at hb
      subst hb
      exact hwa ha
    have hsub2 : acc ++ [w] ⊆ U := by
      intro a ha
      rcases List.mem_append.1 ha with h1 | h1
      · exact hsub h1
      · simp only [List.mem_singleton] at h1
        subst h1
        exact hadj v hw
    have hle := (List.subperm_of_subset hnd2 hsub2).length_le
    simp only [List.length_append, List.length_singleton] at hle
    omega
  | succ k ih =>
    intro acc hnd hsub hlen v hv w hw
    rw [closeIter] at hv ⊢
    by_cases hfix : addNew acc (acc.flatMap adj) = acc
    · rw [if_pos hfix] at hv ⊢
      have h1 : w ∈ addNew acc (acc.flatMap adj) :=
        (mem_addNew _ _ _).2 (Or.inr (List.mem_flatMap.2 ⟨v, hv, hw⟩))
      rw [hfix] at h1
      exact h1
    · rw [if_neg hfix] at hv ⊢
      refine ih _ (addNew_nodup _ hnd) ?_ ?_ v hv hw
      · intro a ha
        rcases (mem_addNew _ _ _).1 ha with h1 | h1
        · exact hsub h1
        · obtain ⟨u, _, hau⟩ := List.mem_flatMap.1 h1
          exact hadj u hau
      · obtain ⟨t, ht⟩ := addNew_append_ex acc (acc.flatMap adj)
        have htne : t ≠ [] := by
          intro h0
          rw [h0, List.append_nil] at ht
          exact hfix ht
        have hpos := List.length_pos.2 htne
        have h2 : acc.length + 1 ≤ (addNew acc (acc.flatMap adj)).length := by
          rw [ht, List.length_append]
          omega
        omega

theorem buildGraph_keys (defs : List EntityDef) (cur : Str) :
    (buildGraph defs cur).map Prod.fst = defs.map defId := by
  simp [buildGraph]

theorem buildGraph_localDeps_sub {defs : List EntityDef} {cur : Str} :
    ∀ e ∈ buildGraph defs cur, e.2.localDeps ⊆ defs.map defId := by
  intro e he w hw
  simp only [buildGraph, List.mem_map] at he
  obtain ⟨d, hd, rfl⟩ := he
  simp only at hw
  obtain ⟨p, hp, rfl⟩ := List.mem_map.1 hw
  obtain ⟨a, ha, haeq⟩ := of_decide_eq_true (List.mem_filter.1 hp).2
  rw [← haeq]
  exact List.mem_map_of_mem defId ha

theorem adjOf_buildGraph_sub (defs : List EntityDef) (cur : Str) (v : EntityId) :
    adjOf (buildGraph defs cur) v ⊆ defs.map defId := by
  rw [adjOf]
  cases hf : findNode (buildGraph defs cur) v with
  | none => exact fun a ha => absurd ha (List.not_mem_nil a)
  | some nd => exact buildGraph_localDeps_sub _ (findNode_mem hf)

theorem reaches_mem_closure {g : Graph} {t i : EntityId}
    (hclosed : ∀ v ∈ reachClosure g t, adjOf g v ⊆ reachClosure g t)
    (ht : t ∈ reachClosure g t) (hr : Reaches g t i) : i ∈ reachClosure g t := by
  induction hr with
  | refl => exact ht
  | step _ hw ih => exact hclosed _ ih hw

/-- C6 (amended): when the target's identity is present, subgraph extraction
with kept dependencies returns exactly the definitions reachable from the
target along local edges, as a subsequence of the input (so in input order,
dependencies not necessarily before their dependents): the target is in the
result, every member is reachable from the target, and every reachable
definition is a member. -/
theorem c6_drop_keep_deps (defs : List EntityDef) (target : AssetPath)
    (td : EntityDef)
    (hfind : defs.find? (fun d => decide (defId d = tidOf target)) = some td) :
    ∃ res, dropIndependentEntities defs target true = Except.ok res ∧
      td ∈ res ∧
      res.Sublist defs ∧
      (∀ d ∈ res, Reaches (buildGraph defs (target.project_name.getD []))
        (tidOf target) (defId d)) ∧
      (∀ d ∈ defs, Reaches (buildGraph defs (target.project_name.getD []))
        (tidOf target) (defId d) → d ∈ res) := by
  have htd : defId td = tidOf target := by
    have h0 := List.find?_some hfind
    simpa using h0
  have htmem : tidOf target ∈ reachClosure
      (buildGraph defs (target.project_name.getD [])) (tidOf target) :=
    closeIter_grow _ _ _ (List.mem_singleton.2 rfl)
  have hclosed : ∀ v ∈ reachClosure
        (buildGraph defs (target.project_name.getD [])) (tidOf target),
      adjOf (buildGraph defs (target.project_name.getD [])) v ⊆
        reachClosure (buildGraph defs (target.project_name.getD []))
          (tidOf target) := by
    simp only [reachClosure]
    refine closeIter_closed
      (adjOf (buildGraph defs (target.project_name.getD [])))
      ((buildGraph defs (target.project_name.getD [])).map Prod.fst).dedup
      (List.nodup_dedup _) ?_ _ _
      (List.nodup_singleton _) ?_ ?_
    · intro v w hw
      rw [List.mem_dedup, buildGraph_keys]
      exact adjOf_buildGraph_sub defs _ v hw
    · intro a ha
      simp only [List.mem_singleton] at ha
      subst ha
      rw [List.mem_dedup, buildGraph_keys, ← htd]
      exact List.mem_map_of_mem defId (List.mem_of_find?_eq_some hfind)
    · simp
  have hfind2 : defs.find? (fun d => decide (defId d =
      ⟨target.project_name.getD [], target.asset_type, target.asset_name⟩)) =
        some td := hfind
  refine ⟨defs.filter fun d => decide (defId d ∈ reachClosure
      (buildGraph defs (target.project_name.getD [])) (tidOf target)),
    ?_, ?_, List.filter_sublist _, ?_, ?_⟩
  · simp only [dropIndependentEntities, hfind2]
    rfl
  · refine List.mem_filter.2 ⟨List.mem_of_find?_eq_some hfind, decide_eq_true ?_⟩
    rw [htd]
    exact htmem
  · intro d hd
    have h2 := of_decide_eq_true (List.mem_filter.1 hd).2
    refine closeIter_sound _ (fun i => Reaches _ (tidOf target) i) ?_ _ _ ?_ _ h2
    · exact fun v hv w hw => Reaches.step hv hw
    · intro x hx
      simp only [List.mem_singleton] at hx
      subst hx
      exact Reaches.refl _
  · intro d hd hr
    exact List.mem_filter.2 ⟨hd, decide_eq_true
      (reaches_mem_closure hclosed htmem hr)⟩

/-- C6 is false as stated: extracting m2 from the batch of
test_drop_independent_entities returns [ds1, m2, m3] in input order, where
the dependency m3 of m2 appears after m2, so a dependency does not always
precede its dependent. -/
theorem c6_counterexample :
    dropIndependentEntities dropFuncs
        ⟨strL "m2", AssetType.model, some (strL "test-acc"), some (strL "test"),
          none, none, none⟩ true =
      Except.ok [dds1, dm2, dm3] ∧
    defId dm3 ∈ adjOf (buildGraph dropFuncs (strL "test")) (defId dm2) := by
  exact ⟨rfl, by decide⟩

/-- Witness for C6 (amended) at the extraction of m2 from the batch of
test_drop_independent_entities. -/
theorem c6_witness :
    ∃ res, dropIndependentEntities dropFuncs
        ⟨strL "m2", AssetType.model, some (strL "test-acc"), some (strL "test"),
          none, none, none⟩ true = Except.ok res ∧
      dm2 ∈ res ∧
      res.Sublist dropFuncs ∧
      (∀ d ∈ res, Reaches (buildGraph dropFuncs (strL "test"))
        ⟨strL "test", AssetType.model, strL "m2"⟩ (defId d)) ∧
      (∀ d ∈ dropFuncs, Reaches (buildGraph dropFuncs (strL "test"))
        ⟨strL "test", AssetType.model, strL "m2"⟩ (defId d) → d ∈ res) :=
  c6_drop_keep_deps dropFuncs
    ⟨strL "m2", AssetType.model, some (strL "test-acc"), some (strL "test"),
      none, none, none⟩ dm2 (by decide)

theorem buildGraph_eq (defs : List EntityDef) (cur : Str) :
    buildGraph defs cur = defs.map fun d => (defId d, mkNode defs cur d) := rfl

theorem findNode_map (l : List EntityDef) (nodef : EntityDef → GraphNode)
    (i : EntityId) :
    findNode (l.map fun d => (defId d, nodef d)) i =
      (l.find? fun d => decide (defId d = i)).map nodef := by
  induction l with
  | nil => rfl
  | cons x xs ih =>
    rw [List.map_cons, findNode]
    by_cases hx : defId x = i
    · have h1 : List.find? (fun d => decide (defId d = i)) (x :: xs) = some x :=
        List.find?_cons_of_pos _ (by simpa using hx)
      rw [if_pos hx, h1]
      rfl
    · have h1 : List.find? (fun d => decide (defId d = i)) (x :: xs) =
          List.find? (fun d => decide (defId d = i)) xs :=
        List.find?_cons_of_neg _ (by simpa using hx)
      rw [if_neg hx, h1, ih]

theorem find?_map_nodup {α β : Type} [DecidableEq β] (f : α → β) (d0 : α) :
    ∀ (l : List α) (i : Nat), (l.map f).Nodup → i < l.length →
      l.find? (fun a => decide (f a = f (l.getD i d0))) = some (l.getD i d0) := by
  intro l
  induction l with
  | nil => intro i _ h; simp at h
  | cons x xs ih =>
    intro i hnd hi
    rw [List.map_cons, List.nodup_cons] at hnd
    obtain ⟨hx, hxs⟩ := hnd
    cases i with
    | zero =>
      rw [List.getD_cons_zero]
      exact List.find?_cons_of_pos _ (by simp)
    | succ j =>
      rw [List.getD_cons_succ]
      have hj : j < xs.length := by simpa using hi
      have hmem : xs.getD j d0 ∈ xs := by
        rw [List.getD_eq_getElem xs d0 hj]
        exact List.getElem_mem hj
      have hne : f x ≠ f (xs.getD j d0) := by
        intro he
        exact hx (he ▸ List.mem_map_of_mem f hmem)
      rw [List.find?_cons_of_neg _ (by simpa using hne)]
      exact ih j hxs hj

theorem chainOk_facts (pfn : ProjectFullName) :
    ∀ (defs : List EntityDef) (prev : Option EntityDef),
      chainOk pfn prev defs = true →
      (∀ i, i < defs.length →
        (defs.getD i dfltDef).project_name = pfn.project_name) ∧
      (0 < defs.length →
        (defs.getD 0 dfltDef).dependencies =
          (match prev with
           | none => []
           | some pd => [bareDep pd.assetType pd.name])) ∧
      (∀ i, i + 1 < defs.length →
        (defs.getD (i + 1) dfltDef).dependencies =
          [bareDep ((defs.getD i dfltDef).assetType) ((defs.getD i dfltDef).name)]) := by
  intro defs
  induction defs with
  | nil =>
    intro prev _
    refine ⟨?_, ?_, ?_⟩
    · intro i h
      simp at h
    · intro h
      simp at h
    · intro i h
      simp at h
  | cons d rest ih =>
    intro prev hch
    simp only [chainOk, Bool.and_eq_true] at hch
    obtain ⟨⟨hproj, hdep0⟩, hrest⟩ := hch
    obtain ⟨ih1, ih2, ih3⟩ := ih (some d) hrest
    refine ⟨?_, ?_, ?_⟩
    · intro i hi
      cases i with
      | zero => rw [List.getD_cons_zero]; exact of_decide_eq_true hproj
      | succ j =>
        rw [List.getD_cons_succ]
        exact ih1 j (by simpa using hi)
    · intro _
      rw [List.getD_cons_zero]
      cases prev with
      | none => exact of_decide_eq_true hdep0
      | some pd => exact of_decide_eq_true hdep0
    · intro i hi
      cases i with
      | zero =>
        rw [List.getD_cons_succ, List.getD_cons_zero]
        have h0 : 0 < rest.length := by simpa using hi
        exact ih2 h0
      | succ j =>
        rw [List.getD_cons_succ, List.getD_cons_succ]
        exact ih3 j (by simpa using hi)

theorem chain_findNode (pfn : ProjectFullName) (defs : List EntityDef)
    (hnd : (defs.map defId).Nodup) (i : Nat) (hi : i < defs.length) :
    findNode (buildGraph defs pfn.project_name) (defId (defs.getD i dfltDef)) =
      some (mkNode defs pfn.project_name (defs.getD i dfltDef)) := by
  rw [buildGraph_eq, findNode_map, find?_map_nodup defId dfltDef defs i hnd hi]
  rfl

theorem chain_adj_zero (pfn : ProjectFullName) (defs : List EntityDef)
    (hch : chainOk pfn none defs = true) (hnd : (defs.map defId).Nodup)
    (h0 : 0 < defs.length) :
    adjOf (buildGraph defs pfn.project_name) (defId (defs.getD 0 dfltDef)) = [] := by
  obtain ⟨_, ch2, _⟩ := chainOk_facts pfn defs none hch
  have hd0 : (defs.getD 0 dfltDef).dependencies = [] := ch2 h0
  rw [adjOf, chain_findNode pfn defs hnd 0 h0]
  simp only [mkNode, hd0, List.filter_nil, List.map_nil]

theorem chain_adj_succ (pfn : ProjectFullName) (defs : List EntityDef)
    (hch : chainOk pfn none defs = true) (hnd : (defs.map defId).Nodup)
    (j : Nat) (hj : j + 1 < defs.length) :
    adjOf (buildGraph defs pfn.project_name) (defId (defs.getD (j + 1) dfltDef)) =
      [defId (defs.getD j dfltDef)] := by
  obtain ⟨ch1, _, ch3⟩ := chainOk_facts pfn defs none hch
  rw [adjOf, chain_findNode pfn defs hnd (j + 1) hj]
  have hdj := ch3 j hj
  have hproj : (defs.getD j dfltDef).project_name = pfn.project_name :=
    ch1 j (by omega)
  have hdep : depId pfn.project_name
      (bareDep (defs.getD j dfltDef).assetType (defs.getD j dfltDef).name) =
      defId (defs.getD j dfltDef) := by
    simp only [depId, bareDep, defId, Option.getD_none, hproj]
  have hmem : defId (defs.getD j dfltDef) ∈ defs.map defId := by
    refine List.mem_map_of_mem defId ?_
    rw [List.getD_eq_getElem defs dfltDef (by omega)]
    exact List.getElem_mem _
  have hdec : decide (depId pfn.project_name
      (bareDep (defs.getD j dfltDef).assetType (defs.getD j dfltDef).name) ∈
        defs.map defId) = true := decide_eq_true (hdep ▸ hmem)
  simp only [mkNode, hdj, List.filter_cons, List.filter_nil]
  rw [if_pos hdec]
  simp only [List.map_cons, List.map_nil, hdep]

theorem chain_ext_nil (pfn : ProjectFullName) (defs : List EntityDef)
    (hch : chainOk pfn none defs = true) :
    ∀ e ∈ buildGraph defs pfn.project_name, e.2.externalDeps = [] := by
  obtain ⟨ch1, ch2, ch3⟩ := chainOk_facts pfn defs none hch
  intro e he
  rw [buildGraph_eq] at he
  obtain ⟨d, hd, rfl⟩ := List.mem_map.1 he
  obtain ⟨i, hi, hgi⟩ := List.mem_iff_getElem.1 hd
  have hd2 : d = defs.getD i dfltDef := by
    rw [List.getD_eq_getElem defs dfltDef hi, hgi]
  subst hd2
  simp only [mkNode]
  rw [List.filter_eq_nil_iff]
  intro p hp
  cases i with
  | zero =>
    rw [ch2 hi] at hp
    simp at hp
  | succ j =>
    rw [ch3 j hi] at hp
    simp only [List.mem_singleton] at hp
    subst hp
    have hproj : (defs.getD j dfltDef).project_name = pfn.project_name :=
      ch1 j (by omega)
    have hdep : depId pfn.project_name
        (bareDep (defs.getD j dfltDef).assetType (defs.getD j dfltDef).name) =
        defId (defs.getD j dfltDef) := by
      simp only [depId, bareDep, defId, Option.getD_none, hproj]
    have hmem : defId (defs.getD j dfltDef) ∈ defs.map defId := by
      refine List.mem_map_of_mem defId ?_
      rw [List.getD_eq_getElem defs dfltDef (by omega)]
      exact List.getElem_mem _
    simp only [hdep, decide_eq_true_eq]
    intro hcon
    exact hcon hmem

theorem map_nodup_getD_ne {α β : Type} (f : α → β) (d0 : α) (l : List α)
    (hnd : (l.map f).Nodup) (a b : Nat) (ha : a < l.length) (hb : b < l.length)
    (hab : a ≠ b) : f (l.getD a d0) ≠ f (l.getD b d0) := by
  intro he
  rw [List.getD_eq_getElem l d0 ha, List.getD_eq_getElem l d0 hb] at he
  have ha2 : a < (l.map f).length := by simpa
  have hb2 : b < (l.map f).length := by simpa
  have h1 : (l.map f)[a] = (l.map f)[b] := by
    simpa [List.getElem_map] using he
  exact hab (hnd.getElem_inj_iff.1 h1)

theorem chain_depth (pfn : ProjectFullName) (defs : List EntityDef)
    (hch : chainOk pfn none defs = true) (hnd : (defs.map defId).Nodup) :
    ∀ i fuel, i < defs.length → i < fuel →
      nodeDepth (buildGraph defs pfn.project_name) fuel
        (defId (defs.getD i dfltDef)) = i := by
  intro i
  induction i with
  | zero =>
    intro fuel h0 hf
    cases fuel with
    | zero => omega
    | succ f =>
      rw [nodeDepth, chain_adj_zero pfn defs hch hnd h0]
  | succ j ih =>
    intro fuel hj hf
    cases fuel with
    | zero => omega
    | succ f =>
      rw [nodeDepth, chain_adj_succ pfn defs hch hnd j hj]
      simp only [List.map_cons, List.map_nil, List.foldl_cons, List.foldl_nil]
      rw [ih f (by omega) (by omega)]
      have hmx : Nat.max 0 j = j := Nat.zero_max j
      rw [hmx]
      omega

theorem chain_dfs (pfn : ProjectFullName) (defs : List EntityDef)
    (hch : chainOk pfn none defs = true) (hnd : (defs.map defId).Nodup) :
    ∀ i, i < defs.length → ∀ fuel stack,
      (∀ j, j ≤ i → defId (defs.getD j dfltDef) ∉ stack) →
      dfsCycles (adjOf (buildGraph defs pfn.project_name)) fuel stack
        (defId (defs.getD i dfltDef)) = [] := by
  intro i
  induction i with
  | zero =>
    intro h0 fuel stack hst
    cases fuel with
    | zero => rfl
    | succ f =>
      rw [dfsCycles, chain_adj_zero pfn defs hch hnd h0]
      rfl
  | succ j ih =>
    intro hj fuel stack hst
    cases fuel with
    | zero => rfl
    | succ f =>
      rw [dfsCycles, chain_adj_succ pfn defs hch hnd j hj]
      simp only [List.flatMap_cons, List.flatMap_nil, List.append_nil]
      have hne : defId (defs.getD j dfltDef) ≠ defId (defs.getD (j + 1) dfltDef) :=
        map_nodup_getD_ne defId dfltDef defs hnd j (j + 1) (by omega) hj (by omega)
      have hnotin : defId (defs.getD j dfltDef) ∉
          stack ++ [defId (defs.getD (j + 1) dfltDef)] := by
        intro hmem
        rcases List.mem_append.1 hmem with h1 | h1
        · exact hst j (by omega) h1
        · simp only [List.mem_singleton] at h1
          exact hne h1
      rw [if_neg hnotin]
      refine ih (by omega) f (stack ++ [defId (defs.getD (j + 1) dfltDef)]) ?_
      intro k hk hmem
      rcases List.mem_append.1 hmem with h1 | h1
      · exact hst k (by omega) h1
      · simp only [List.mem_singleton] at h1
        exact map_nodup_getD_ne defId dfltDef defs hnd k (j + 1) (by omega) hj
          (by omega) h1

theorem chain_no_cycles (pfn : ProjectFullName) (defs : List EntityDef)
    (hch : chainOk pfn none defs = true) (hnd : (defs.map defId).Nodup) :
    findCycles (buildGraph defs pfn.project_name) = [] := by
  rw [findCycles]
  have h1 : ((buildGraph defs pfn.project_name).map Prod.fst).flatMap
      (fun i => dfsCycles (adjOf (buildGraph defs pfn.project_name))
        ((buildGraph defs pfn.project_name).length + 1) [] i) = [] := by
    refine List.flatMap_eq_nil_iff.2 ?_
    intro r hr
    rw [buildGraph_keys] at hr
    obtain ⟨d, hd, rfl⟩ := List.mem_map.1 hr
    obtain ⟨i, hi, hgi⟩ := List.mem_iff_getElem.1 hd
    have hd2 : d = defs.getD i dfltDef := by
      rw [List.getD_eq_getElem defs dfltDef hi, hgi]
    subst hd2
    exact chain_dfs pfn defs hch hnd i hi _ [] (fun j _ => List.not_mem_nil _)
  rw [h1]
  rfl

theorem chain_check (pfn : ProjectFullName) (defs : List EntityDef)
    (hch : chainOk pfn none defs = true) (hnd : (defs.map defId).Nodup) :
    checkEntityDependencies defs pfn.project_name = Except.ok () := by
  simp only [checkEntityDependencies]
  rw [chain_no_cycles pfn defs hch hnd,
    unresolvedOf_nil (chain_ext_nil pfn defs hch)]

theorem foldl_max_range (n : Nat) : (List.range n).foldl Nat.max 0 = n - 1 := by
  induction n with
  | zero => rfl
  | succ n ih =>
    rw [List.range_succ, List.foldl_append, ih, List.foldl_cons, List.foldl_nil]
    have hmx : Nat.max (n - 1) n = n := Nat.max_eq_right (by omega)
    rw [hmx]
    omega

theorem flatMap_eq_map_of_mem {α β : Type} (l : List α) (f : α → List β)
    (g2 : α → β) (h : ∀ x ∈ l, f x = [g2 x]) : l.flatMap f = l.map g2 := by
  induction l with
  | nil => rfl
  | cons x xs ih =>
    rw [List.flatMap_cons, List.map_cons, h x (by simp),
      ih fun y hy => h y (by simp [hy])]
    rfl

theorem filter_singleton_positional {α : Type} (d0 : α) :
    ∀ (l : List α) (q : α → Bool) (k : Nat), k < l.length →
      (∀ i, i < l.length → (q (l.getD i d0) = true ↔ i = k)) →
      l.filter q = [l.getD k d0] := by
  intro l
  induction l with
  | nil =>
    intro q k hk _
    simp at hk
  | cons x xs ih =>
    intro q k hk hq
    cases k with
    | zero =>
      have hx : q x = true := by
        have h1 := (hq 0 (by simp)).2 rfl
        rw [List.getD_cons_zero] at h1
        exact h1
      rw [List.getD_cons_zero, List.filter_cons_of_pos hx]
      have h2 : xs.filter q = [] := by
        rw [List.filter_eq_nil_iff]
        intro y hy hqy
        obtain ⟨i, hilt, hgi⟩ := List.mem_iff_getElem.1 hy
        have h3 : q ((x :: xs).getD (i + 1) d0) = true := by
          rw [List.getD_cons_succ, List.getD_eq_getElem xs d0 hilt, hgi]
          exact hqy
        have h4 := (hq (i + 1) (by simp only [List.length_cons]; omega)).1 h3
        omega
      rw [h2]
    | succ j =>
      have hx : q x = false := by
        cases hqx : q x with
        | false => rfl
        | true =>
          have h1 := hq 0 (by simp)
          rw [List.getD_cons_zero] at h1
          have := h1.1 hqx
          omega
      rw [List.getD_cons_succ, List.filter_cons_of_neg (by simp [hx])]
      refine ih q j (by simpa using hk) ?_
      intro i hi
      have h1 := hq (i + 1) (by simp only [List.length_cons]; omega)
      rw [List.getD_cons_succ] at h1
      constructor
      · intro h2
        have := h1.1 h2
        omega
      · intro h2
        exact h1.2 (by omega)

/-- C5: for every nonempty strict linear chain of definitions with distinct
identities in the current project, the plan is exactly one Sequential step
per definition, in dependency order (the input order of the chain), and
each step's explicit dependency list renders that entity's direct declared
dependency paths, not a transitive set. -/
theorem c5_linear_chain (pfn : ProjectFullName) (defs : List EntityDef)
    (hne : defs ≠ []) (hch : chainOk pfn none defs = true)
    (hnd : (defs.map defId).Nodup) :
    buildExecutionPlan ⟨pfn, defs⟩ = Except.ok
      ⟨defs.map fun d =>
        PlanOp.sequential d (d.dependencies.map (renderDepPath pfn))⟩ := by
  have hlen : 0 < defs.length := List.length_pos.2 hne
  have hdepth := chain_depth pfn defs hch hnd
  simp only [buildExecutionPlan, chain_check pfn defs hch hnd]
  have hmap : (defs.map fun d =>
      nodeDepth (buildGraph defs pfn.project_name) defs.length (defId d)) =
      List.range defs.length := by
    refine List.ext_get (by simp) ?_
    intro n h1 h2
    simp only [List.get_eq_getElem, List.getElem_map, List.getElem_range]
    have hn : n < defs.length := by simpa using h1
    have h3 := hdepth n defs.length hn hn
    rw [List.getD_eq_getElem defs dfltDef hn] at h3
    exact h3
  rw [hmap, foldl_max_range]
  have hrange : defs.length - 1 + 1 = defs.length := by omega
  rw [hrange]
  refine congrArg (fun ops => Except.ok (ExecutionPlan.mk ops)) ?_
  refine Eq.trans (flatMap_eq_map_of_mem _ _
    (fun k => PlanOp.sequential (defs.getD k dfltDef)
      ((defs.getD k dfltDef).dependencies.map (renderDepPath pfn))) ?_) ?_
  · intro k hk
    have hklt : k < defs.length := List.mem_range.1 hk
    have hfil : (defs.filter fun d => decide
        (nodeDepth (buildGraph defs pfn.project_name) defs.length (defId d) = k)) =
          [defs.getD k dfltDef] := by
      refine filter_singleton_positional dfltDef defs _ k hklt ?_
      intro i hi
      rw [decide_eq_true_eq, hdepth i defs.length hi hi]
    rw [hfil]
  · refine List.ext_get (by simp) ?_
    intro n h1 h2
    simp only [List.get_eq_getElem, List.getElem_map, List.getElem_range]
    have hn : n < defs.length := by simpa using h2
    rw [List.getD_eq_getElem defs dfltDef hn]

/-- Witness for C5 at the five-entity chain of
test_build_execution_plan_linear: ds1, ds2, ds3, m1, m2 each depending on
the previous one. -/
theorem c5_witness :
    buildExecutionPlan ⟨⟨strL "test-acc", strL "test"⟩,
        [⟨strL "ds1", AssetType.dataset, strL "test", strL "test-acc", 0, []⟩,
         ⟨strL "ds2", AssetType.dataset, strL "test", strL "test-acc", 1,
           [bareDep AssetType.dataset (strL "ds1")]⟩,
         ⟨strL "ds3", AssetType.dataset, strL "test", strL "test-acc", 2,
           [bareDep AssetType.dataset (strL "ds2")]⟩,
         ⟨strL "m1", AssetType.model, strL "test", strL "test-acc", 3,
           [bareDep AssetType.dataset (strL "ds3")]⟩,
         ⟨strL "m2", AssetType.model, strL "test", strL "test-acc", 4,
           [bareDep AssetType.model (strL "m1")]⟩]⟩ =
      Except.ok
        ⟨[⟨strL "ds1", AssetType.dataset, strL "test", strL "test-acc", 0, []⟩,
          ⟨strL "ds2", AssetType.dataset, strL "test", strL "test-acc", 1,
            [bareDep AssetType.dataset (strL "ds1")]⟩,
          ⟨strL "ds3", AssetType.dataset, strL "test", strL "test-acc", 2,
            [bareDep AssetType.dataset (strL "ds2")]⟩,
          ⟨strL "m1", AssetType.model, strL "test", strL "test-acc", 3,
            [bareDep AssetType.dataset (strL "ds3")]⟩,
          ⟨strL "m2", AssetType.model, strL "test", strL "test-acc", 4,
            [bareDep AssetType.model (strL "m1")]⟩].map fun d =>
          PlanOp.sequential d (d.dependencies.map
            (renderDepPath ⟨strL "test-acc", strL "test"⟩))⟩ :=
  c5_linear_chain ⟨strL "test-acc", strL "test"⟩
    [⟨strL "ds1", AssetType.dataset, strL "test", strL "test-acc", 0, []⟩,
     ⟨strL "ds2", AssetType.dataset, strL "test", strL "test-acc", 1,
       [bareDep AssetType.dataset (strL "ds1")]⟩,
     ⟨strL "ds3", AssetType.dataset, strL "test", strL "test-acc", 2,
       [bareDep AssetType.dataset (strL "ds2")]⟩,
     ⟨strL "m1", AssetType.model, strL "test", strL "test-acc", 3,
       [bareDep AssetType.dataset (strL "ds3")]⟩,
     ⟨strL "m2", AssetType.model, strL "test", strL "test-acc", 4,
       [bareDep AssetType.model (strL "m1")]⟩]
    (by simp) (by decide) (by decide)
